import Mathlib

/-!
Verification of the HTML-to-Markdown conversion core of the vibe-clipper
repository (src/lib/clipper-core).  JavaScript strings are embedded as
`List Char`; the JS string operations used by the source (split, join,
trim, replace, repeat) are translated below.  Browser / library APIs that
the source calls (WHATWG URL, the turndown walking engine, MathMLToLaTeX)
are modelled by explicit Lean functions or parameters, as noted at each
definition.
-/

namespace VC

/-- JS whitespace characters relevant to the strings this code produces
(String.prototype.trim strips the full Unicode whitespace class; the
conversion pipeline only ever produces these ASCII ones). -/
def wsChar (c : Char) : Bool :=
  c = ' ' ∨ c = '\t' ∨ c = '\n' ∨ c = '\r'

/-- Embedding of JS String.prototype.trim. -/
def jsTrim (l : List Char) : List Char :=
  ((l.dropWhile wsChar).reverse.dropWhile wsChar).reverse

/-- Embedding of JS String.prototype.split with a one-character separator. -/
def splitChar (sep : Char) : List Char → List (List Char)
  | [] => [[]]
  | c :: cs =>
    match splitChar sep cs with
    | [] => [[]]
    | h :: t => if c = sep then [] :: h :: t else (c :: h) :: t

/-- Split on the newline character, as in content.split of a newline. -/
def splitNL : List Char → List (List Char) := splitChar '\n'

/-- Embedding of JS Array.prototype.join with a string separator. -/
def joinSep (sep : List Char) : List (List Char) → List Char
  | [] => []
  | [x] => x
  | x :: y :: rest => x ++ sep ++ joinSep sep (y :: rest)

/-- Embedding of the regex replace removing trailing newlines
(replace of a trailing run of newlines by the empty string). -/
def rstripNL (l : List Char) : List Char :=
  (l.reverse.dropWhile (· = '\n')).reverse

/-- Embedding of a global single-character regex replace by one character,
as in the table rule where each newline becomes a space. -/
def replaceChar (a b : Char) (l : List Char) : List Char :=
  l.map (fun c => if c = a then b else c)

/-- Embedding of the global replace escaping pipe characters in table
cells: every pipe becomes a backslash followed by a pipe. -/
def escapePipes : List Char → List Char
  | [] => []
  | c :: cs => if c = '|' then '\\' :: '|' :: escapePipes cs else c :: escapePipes cs

/-- Embedding of the post-processing global regex replace that collapses
every run of three or more newlines to exactly two (each maximal run of
at least three newlines loses newlines until two remain). -/
def collapseNL : List Char → List Char
  | [] => []
  | '\n' :: '\n' :: '\n' :: rest => collapseNL ('\n' :: '\n' :: rest)
  | c :: cs => c :: collapseNL cs
  termination_by l => l.length
  decreasing_by all_goals simp_arith

/-- Decides whether a string contains three consecutive newlines. -/
def has3NL : List Char → Bool
  | [] => false
  | c :: cs =>
    ((c == '\n') && (cs.head? == some '\n') && (cs.tail.head? == some '\n')) ||
    has3NL cs

/-- Decimal digits of a natural number, least significant last. -/
def natChars (n : Nat) : List Char :=
  if n < 10 then [Char.ofNat (48 + n)]
  else natChars (n / 10) ++ [Char.ofNat (48 + n % 10)]
  termination_by n
  decreasing_by omega

/-- JS coercion of an integer to its decimal string. -/
def intChars (i : Int) : List Char :=
  (if i < 0 then ['-'] else []) ++ natChars i.natAbs

/-!
Post-processor and top-level convert of TurndownConverter
(converters/turndown-converter.ts, lines 68 to 98).
-/

/-- Embedding of the leading-title regex strip in postProcess: a match of
hash, space, one or more non-newline characters, then one or more
newlines, anchored at the start, is removed. -/
def stripTitle (l : List Char) : List Char :=
  match l with
  | '#' :: ' ' :: rest =>
    let body := rest.takeWhile (fun c => c ≠ '\n')
    let after := rest.drop body.length
    if body ≠ [] ∧ after.head? = some '\n' then after.dropWhile (· = '\n')
    else l
  | _ => l

/-- Tries the empty-link regex at the head of the string: a run of
newlines, a negative lookbehind for an exclamation mark, literal square
bracket pair, a nonempty parenthesized target, then a run of newlines.
Returns the last matched character together with the matched length. -/
def elMatchLen (prev : Option Char) (l : List Char) : Option (Char × Nat) :=
  let nls := l.takeWhile (· = '\n')
  let r1 := l.drop nls.length
  let behind : Option Char := if nls.isEmpty then prev else some '\n'
  if behind = some '!' then none
  else
    match r1 with
    | '[' :: ']' :: '(' :: r2 =>
      let inner := r2.takeWhile (fun c => c ≠ ')')
      let r3 := r2.drop inner.length
      if inner ≠ [] ∧ r3.head? = some ')' then
        let nls2 := (r3.drop 1).takeWhile (· = '\n')
        some ((if nls2.isEmpty then ')' else '\n'),
              nls.length + 3 + inner.length + 1 + nls2.length)
      else none
    | _ => none

/-- Global scan of the empty-link removal regex: left to right, replacing
each match by the empty string; prev tracks the character before the
current position for the lookbehind.  A successful match consumes at
least four characters, so the lower bound in the drop only serves the
termination measure. -/
def removeEmptyLinksGo (prev : Option Char) : List Char → List Char
  | [] => []
  | c :: cs =>
    match elMatchLen prev (c :: cs) with
    | some (ch, n) => removeEmptyLinksGo (some ch) ((c :: cs).drop (max 1 n))
    | none => c :: removeEmptyLinksGo (some c) cs
  termination_by l => l.length
  decreasing_by all_goals (simp [List.length_drop]; try omega)

/-- Embedding of TurndownConverter.postProcess: strip a leading title,
remove empty links, collapse newline runs of three or more to two. -/
def postProcess (md : List Char) : List Char :=
  collapseNL (removeEmptyLinksGo none (stripTitle md))

/-- Literal error header of the catch branch of convert. -/
def errHeader : List Char :=
  ("Partial conversion completed with errors. Original HTML:\n\n").data

/-- Embedding of the try/catch body of TurndownConverter.convert (lines
68 to 78): walk is the outcome of the turndown tree walk on the
URL-processed HTML, ok carrying the raw markdown and error an uncaught
exception.  On success the markdown is post-processed and trimmed; on
failure the catch branch returns the marked partial result embedding the
URL-processed HTML. -/
def convertResult (processedHtml : List Char) (walk : Except Unit (List Char)) :
    List Char :=
  match walk with
  | .ok md => jsTrim (postProcess md)
  | .error _ => errHeader ++ processedHtml

/-!
URL model.  The source (utils/url.ts) relies on the browser URL
constructor; the subset of WHATWG URL parsing, relative resolution and
serialization exercised by makeUrlAbsolute is modelled here: scheme
parsing with lowercasing, host up to the first delimiter (userinfo and
ports are folded into the host string), dot-segment removal,
percent-encoding of disallowed ASCII path bytes, and the relative,
protocol-relative, path-absolute, query-only and fragment-only forms.
-/

/-- Parsed URL record; host is none for opaque-path URLs such as data
URIs. -/
structure URLRec where
  scheme : List Char
  host : Option (List Char)
  path : List Char
  query : Option (List Char)
  frag : Option (List Char)
  deriving DecidableEq, Repr

/-- Lowercase an ASCII string. -/
def toLowerL (l : List Char) : List Char := l.map Char.toLower

/-- Characters allowed after the first one in a URL scheme. -/
def isSchemeChar (c : Char) : Bool :=
  c.isAlpha ∨ c.isDigit ∨ c = '+' ∨ c = '-' ∨ c = '.'

/-- Splits a leading scheme (letter, scheme characters, colon) off a URL
string, lowercasing it; none when the string carries no scheme. -/
def parseScheme (l : List Char) : Option (List Char × List Char) :=
  match l with
  | [] => none
  | c :: _ =>
    if c.isAlpha then
      let s := l.takeWhile isSchemeChar
      match l.drop s.length with
      | ':' :: r => some (toLowerL s, r)
      | _ => none
    else none

/-- The special schemes this model distinguishes. -/
def specialScheme (s : List Char) : Bool :=
  s = ("http").data ∨ s = ("https").data

/-- Break a string at the first character satisfying p. -/
def breakAt (p : Char → Bool) (l : List Char) : List Char × List Char :=
  (l.takeWhile (fun c => ¬ p c), l.dropWhile (fun c => ¬ p c))

/-- Split off a fragment: everything after the first hash sign. -/
def splitFrag (l : List Char) : List Char × Option (List Char) :=
  match breakAt (· = '#') l with
  | (a, []) => (a, none)
  | (a, _ :: r) => (a, some r)

/-- Split off a query: everything after the first question mark. -/
def splitQuery (l : List Char) : List Char × Option (List Char) :=
  match breakAt (· = '?') l with
  | (a, []) => (a, none)
  | (a, _ :: r) => (a, some r)

/-- Dot-segment removal worker over the path segments after the leading
slash; acc holds the output segments reversed. -/
def rdsGo (acc : List (List Char)) : List (List Char) → List (List Char)
  | [] => acc.reverse
  | seg :: rest =>
    if seg = ['.'] then
      if rest.isEmpty then acc.reverse ++ [[]] else rdsGo acc rest
    else if seg = ['.', '.'] then
      if rest.isEmpty then acc.tail.reverse ++ [[]] else rdsGo acc.tail rest
    else rdsGo (seg :: acc) rest

/-- Remove dot segments from a slash-led path. -/
def removeDotSegments (p : List Char) : List Char :=
  match splitChar '/' p with
  | [] => p
  | _ :: segs => '/' :: joinSep ['/'] (rdsGo [] segs)

/-- ASCII characters serialized verbatim in a URL path. -/
def pathSafe (c : Char) : Bool :=
  c.isAlpha ∨ c.isDigit ∨
  c = '-' ∨ c = '.' ∨ c = '_' ∨ c = '~' ∨ c = '!' ∨ c = '$' ∨ c = '&' ∨
  c = '\'' ∨ c = '(' ∨ c = ')' ∨ c = '*' ∨ c = '+' ∨ c = ',' ∨ c = ';' ∨
  c = '=' ∨ c = ':' ∨ c = '@' ∨ c = '/' ∨ c = '%'

/-- Uppercase hexadecimal digit. -/
def hexDigit (n : Nat) : Char :=
  if n < 10 then Char.ofNat (48 + n) else Char.ofNat (55 + n)

/-- Percent-encode a single ASCII character when it is not path-safe. -/
def pctEncodeChar (c : Char) : List Char :=
  if pathSafe c then [c]
  else ['%', hexDigit (c.toNat / 16 % 16), hexDigit (c.toNat % 16)]

/-- Percent-encode a path for serialization. -/
def encodePath (p : List Char) : List Char :=
  (p.map pctEncodeChar).flatten

/-- URL serialization, as read back by the href getter. -/
def href (u : URLRec) : List Char :=
  u.scheme ++ [':'] ++
  (match u.host with
   | some h => '/' :: '/' :: (h ++ encodePath u.path)
   | none => u.path) ++
  (match u.query with | some q => '?' :: q | none => []) ++
  (match u.frag with | some f => '#' :: f | none => [])

/-- Parse an authority plus path section: leading slashes skipped, host
up to the first delimiter, then path, query and fragment.  Fails on an
empty host. -/
def parseHosted (scheme : List Char) (r : List Char) : Option URLRec :=
  let r1 := r.dropWhile (fun c => c = '/' ∨ c = '\\')
  match breakAt (fun c => c = '/' ∨ c = '?' ∨ c = '#') r1 with
  | (hostPart, rest) =>
    if hostPart = [] then none
    else
      let (preFrag, frag) := splitFrag rest
      let (pathPart, query) := splitQuery preFrag
      some { scheme, host := some (toLowerL hostPart),
             path := removeDotSegments pathPart, query, frag }

/-- Parse a URL that carries its own scheme. -/
def parseAbsolute (scheme rest : List Char) : Option URLRec :=
  if specialScheme scheme then parseHosted scheme rest
  else
    match rest with
    | '/' :: '/' :: r2 => parseHosted scheme ('/' :: '/' :: r2)
    | _ =>
      let (preFrag, frag) := splitFrag rest
      let (pathPart, query) := splitQuery preFrag
      some { scheme, host := none, path := pathPart, query, frag }

/-- Directory part of a path: everything up to and including the last
slash; empty when the path has no slash. -/
def dirOfPath (p : List Char) : List Char :=
  (p.reverse.dropWhile (fun c => c ≠ '/')).reverse

/-- Resolve a scheme-less (or special same-scheme) reference against a
base URL.  A base with an opaque path only accepts empty and
fragment-only references. -/
def resolveRel (val : List Char) (base : URLRec) : Option URLRec :=
  if base.host = none then
    if val = [] then some { base with frag := none }
    else if val.head? = some '#' then some { base with frag := some val.tail }
    else none
  else if val = [] then some { base with frag := none }
  else if val.head? = some '#' then some { base with frag := some val.tail }
  else if val.head? = some '?' then
    let (q, frag) := splitFrag val.tail
    some { base with query := some q, frag }
  else if val.take 2 = ['/', '/'] then parseHosted base.scheme val
  else if val.head? = some '/' then
    let (preFrag, frag) := splitFrag val
    let (pathPart, query) := splitQuery preFrag
    some { base with path := removeDotSegments pathPart, query, frag }
  else
    let (preFrag, frag) := splitFrag val
    let (pathPart, query) := splitQuery preFrag
    some { base with
           path := removeDotSegments (dirOfPath base.path ++ pathPart),
           query, frag }

/-- Model of the URL constructor with a base: new URL of value against
base; none when the constructor throws. -/
def resolve (value : List Char) (base : URLRec) : Option URLRec :=
  match parseScheme value with
  | some (sch, rest) =>
    if specialScheme sch ∧ sch = base.scheme ∧ rest.take 2 ≠ ['/', '/'] then
      resolveRel rest base
    else parseAbsolute sch rest
  | none => resolveRel value base

/-!
Embedding of utils/url.ts.
-/

/-- Embedding of lines 47 to 52 of makeUrlAbsolute: when the base path
does not end in a slash, the trailing filename segment is stripped. -/
def dirNormalize (base : URLRec) : URLRec :=
  if base.path.getLast? = some '/' then base
  else { base with path := dirOfPath base.path }

/-- Split-on-substring worker; the pattern head and tail are fixed. -/
def splitSubGo (p : Char) (ps : List Char) : List Char → List (List Char)
  | [] => [[]]
  | c :: cs =>
    if (p :: ps).isPrefixOf (c :: cs) then
      [] :: splitSubGo p ps (cs.drop ps.length)
    else
      match splitSubGo p ps cs with
      | [] => [[]]
      | h :: t => (c :: h) :: t
  termination_by l => l.length
  decreasing_by all_goals (simp [List.length_drop]; try omega)

/-- Embedding of JS String.prototype.split with a string separator. -/
def splitSub (pat l : List Char) : List (List Char) :=
  match pat with
  | [] => [l]
  | p :: ps => splitSubGo p ps l

/-- Embedding of the scheme-separator split of line 63: the JS
expression indexes the split at one; when the separator is absent the
undefined value is coerced into the template string. -/
def afterSchemeSep (value : List Char) : List Char :=
  match (splitSub (("://").data) value).get? 1 with
  | some t => t
  | none => ("undefined").data

/-- Embedding of makeUrlAbsolute (utils/url.ts lines 41 to 78).  The
return value is the new attribute value; none means the attribute is
left unchanged (missing or empty value, or a thrown and caught URL
error). -/
def makeUrlAbsolute (value : List Char) (base : URLRec) : Option (List Char) :=
  if value = [] then none
  else
    let resolvedBase := dirNormalize base
    match resolve value resolvedBase with
    | none => none
    | some url =>
      if url.scheme = ("http").data ∨ url.scheme = ("https").data then
        some (href url)
      else
        let parts := splitChar '/' value
        let firstSegment := (parts.get? 2).getD []
        if firstSegment ≠ [] ∧ firstSegment.contains '.' then
          some (base.scheme ++ [':'] ++ ['/', '/'] ++ afterSchemeSep value)
        else
          let path := joinSep ['/'] (parts.drop 3)
          match resolve path { scheme := resolvedBase.scheme,
                               host := resolvedBase.host,
                               path := resolvedBase.path,
                               query := none, frag := none } with
          | none => none
          | some u2 => some (href u2)

/-!
Table rule (converters/turndown-converter.ts, addTableRule, lines 103
to 136).  A cell carries the result of the re-entrant turndown call on
its serialized content (the turndown engine itself is an external
dependency; its output on the cell is the model input) together with its
span attribute flags.
-/

/-- A table cell: converted content plus span-attribute presence. -/
structure TCell where
  content : List Char
  hasColspan : Bool
  hasRowspan : Bool
  deriving DecidableEq, Repr

/-- Embedding of the cell pipeline: newlines to spaces, trim, escape
pipes. -/
def processCellContent (c : List Char) : List Char :=
  escapePipes (jsTrim (replaceChar '\n' ' ' c))

/-- Embedding of the row template: pipe, space, cells joined by
space-pipe-space, space, pipe. -/
def rowLine (cells : List TCell) : List Char :=
  ("| ").data ++
  joinSep ((" | ").data) (cells.map (fun c => processCellContent c.content)) ++
  (" |").data

/-- Separator row with n dash triples. -/
def sepRowOf (n : Nat) : List Char :=
  ("| ").data ++ joinSep ((" | ").data) (List.replicate n (("---").data)) ++
  (" |").data

/-- Embedding of the table rule replacement.  complexHTML stands for the
cleanupTableHTML serialization used by the complex branch (modelled on
element trees further below).  The error value models the TypeError
thrown when the table has no rows and the first row string is read. -/
def tableRule (complexHTML : List Char) (rows : List (List TCell)) :
    Except Unit (List Char) :=
  if rows.any (fun r => r.any (fun c => c.hasColspan ∨ c.hasRowspan)) then
    .ok (('\n' :: '\n' :: complexHTML) ++ ['\n', '\n'])
  else
    match rows with
    | [] => .error ()
    | r0 :: rest =>
      let line0 := rowLine r0
      let k := (splitChar '|' line0).length - 2
      .ok (('\n' :: '\n' ::
            joinSep ['\n'] (line0 :: sepRowOf k :: rest.map rowLine)) ++
           ['\n', '\n'])

/-!
List rules (converters/turndown-converter.ts, addListRules, lines 167
to 221).  The tree grammar models well-formed list markup: an item
carries its text (the converted non-list content), the kind of its
nested sublist and the sublist items (an empty sublist list means the
item has no nested list).  The turndown engine walks bottom-up and hands
every rule the concatenation of its converted children (spec section
4.7); itemsOut realises that concatenation for the children of a list
element.  The task-list branch of the rule is not exercised: modelled
items carry no task-list-item class, so its marker stays empty.  The
ancestor chain r records, for the nodes above the parent list, whether
each is a list element; the while loop of lines 203 to 207 counts the
leading run of list ancestors.
-/

/-- List kind: unordered, or ordered with the optional integer value of
the start attribute (present attributes are decimal integer strings). -/
inductive LKind where
  | ul : LKind
  | ol : Option Int → LKind
  deriving DecidableEq, Repr

/-- List item tree: text content, nested list kind, nested items. -/
inductive Li where
  | mk (text : List Char) (subKind : LKind) (subs : List Li)

/-- Embedding of the nesting-level while loop: count of the leading run
of list-element ancestors. -/
def countLeadingLists (anc : List Bool) : Nat :=
  (anc.takeWhile (· = true)).length

mutual

/-- Embedding of the listItem replacement for one item.  pk is the kind
of the parent list, r the ancestor chain above the parent list, k the
zero-based index of the item among the parent children, hasNext whether
a next sibling exists.  The unordered branch applies the JS max of zero
and level minus one, which is truncated subtraction here. -/
def liOut (bullet : Char) (pk : LKind) (r : List Bool) (k : Nat) :
    Li → Bool → List Char
  | .mk t sk subs, hasNext =>
    let content :=
      t ++ (if subs.isEmpty then []
            else ('\n' :: jsTrim (itemsOut bullet sk (false :: true :: r) 0 subs)) ++ ['\n'])
    let joined :=
      joinSep ['\n', '\t']
        ((splitNL (rstripNL content)).filter (fun l => l.length > 0))
    let level := 1 + countLeadingLists r
    let pfx :=
      match pk with
      | .ul => List.replicate (level - 1) '\t' ++ [bullet, ' ']
      | .ol s =>
        List.replicate (level - 1) '\t' ++
        intChars (match s with
                  | some v => v + ((k : Int) + 1) - 1
                  | none => (k : Int) + 1) ++ ['.', ' ']
    pfx ++ jsTrim joined ++
      (if hasNext ∧ joined.getLast? ≠ some '\n' then ['\n'] else [])
  termination_by i _ => (sizeOf i, 0)

/-- Concatenation of the converted children of a list element, as the
engine hands it to the list rule. -/
def itemsOut (bullet : Char) (pk : LKind) (r : List Bool) :
    Nat → List Li → List Char
  | _, [] => []
  | k, i :: rest =>
    liOut bullet pk r k i (¬ rest.isEmpty) ++ itemsOut bullet pk r (k + 1) rest
  termination_by _ l => (sizeOf l, 1)

end

/-- Embedding of the list replacement (lines 168 to 175): trimmed child
content, with a leading newline when the parent is not itself a list.
The nested sublist emission inside liOut is this function at a
non-list parent (the sublist parent is the list item). -/
def listOut (bullet : Char) (kind : LKind) (r : List Bool)
    (parentIsList : Bool) (items : List Li) : List Char :=
  (if parentIsList then [] else ['\n']) ++
  jsTrim (itemsOut bullet kind r 0 items) ++ ['\n']

/-- The content expression built by the list-item replacement: item text
plus the embedded trimmed sublist emission. -/
def liContent (bullet : Char) (r : List Bool) (t : List Char) (sk : LKind)
    (subs : List Li) : List Char :=
  t ++ (if subs.isEmpty then []
        else ('\n' :: jsTrim (itemsOut bullet sk (false :: true :: r) 0 subs)) ++ ['\n'])

/-- The joined expression of the list-item replacement: the content with
trailing newlines stripped, split on newlines, cleared of empty lines and
rejoined with newline plus tab. -/
def liJoined (bullet : Char) (r : List Bool) (t : List Char) (sk : LKind)
    (subs : List Li) : List Char :=
  joinSep ['\n', '\t']
    ((splitNL (rstripNL (liContent bullet r t sk subs))).filter
      (fun l => l.length > 0))

/-- Marker the specification predicts for an item: bullet and space, or
the start value plus index followed by a dot and space. -/
def markerFor (bullet : Char) (pk : LKind) (k : Nat) : List Char :=
  match pk with
  | .ul => [bullet, ' ']
  | .ol s =>
    intChars (match s with | some v => v + (k : Int) | none => (k : Int) + 1) ++
    ['.', ' ']

/-- Specification-side rendering: the output lines a converted list
should consist of, one marker line per item, sublist lines indented by
one extra tab. -/
def renderItems (bullet : Char) (pk : LKind) : Nat → List Li → List (List Char)
  | _, [] => []
  | k, .mk t sk subs :: rest =>
    (markerFor bullet pk k ++ t) ::
    ((renderItems bullet sk 0 subs).map (fun l => '\t' :: l) ++
     renderItems bullet pk (k + 1) rest)

/-- Entries found at list-nesting depth d (depth one is the top list):
parent kind, index among siblings, and item text. -/
def entriesAtDepth : Nat → LKind → Nat → List Li → List (LKind × Nat × List Char)
  | 0, _, _, _ => []
  | _, _, _, [] => []
  | 1, pk, k, .mk t _ _ :: rest => (pk, k, t) :: entriesAtDepth 1 pk (k + 1) rest
  | d + 2, pk, k, .mk _ sk subs :: rest =>
    entriesAtDepth (d + 1) sk 0 subs ++ entriesAtDepth (d + 2) pk (k + 1) rest

/-- Well-formed item text: nonempty, single line, no surrounding
whitespace. -/
def wfText : List Char → Bool
  | [] => false
  | c :: cs =>
    (!wsChar c) &&
    ((c :: cs).getLast?.elim false (fun d => !wsChar d)) &&
    ((c :: cs).all (fun x => !(x == '\n')))

mutual

/-- Well-formed item: well-formed text and well-formed sublist items. -/
def wfLT : Li → Bool
  | .mk t _ subs => wfText t && wfLTs subs
  termination_by i => (sizeOf i, 0)

/-- Well-formed item list. -/
def wfLTs : List Li → Bool
  | [] => true
  | i :: rest => wfLT i && wfLTs rest
  termination_by l => (sizeOf l, 1)

end

/-!
Element trees.  DOM elements are modelled as trees carrying the
lowercase tag name, the attribute list and the children; text nodes
carry their character data.  The ancestor chain of a node is supplied
alongside it where a rule consults it (closest walks the chain).
-/

/-- DOM node: element with lowercase name, attributes and children, or a
text node. -/
inductive El where
  | elem (name : List Char) (attrs : List (List Char × List Char)) (children : List El)
  | txt (s : List Char)

/-- Tag name of a node (empty for text nodes). -/
def nameOf : El → List Char
  | .elem n _ _ => n
  | .txt _ => []

/-- Children of a node. -/
def childrenOf : El → List El
  | .elem _ _ ch => ch
  | .txt _ => []

/-- Attribute lookup, as getAttribute (none when absent). -/
def getAttr (e : El) (a : List Char) : Option (List Char) :=
  match e with
  | .elem _ attrs _ => (attrs.find? (fun p => p.1 = a)).map (fun p => p.2)
  | .txt _ => none

/-- Class-list membership, as classList.contains. -/
def hasClass (e : El) (c : List Char) : Bool :=
  c ∈ (splitChar ' ' ((getAttr e (("class").data)).getD [])).filter
        (fun s => s ≠ [])

mutual

/-- Concatenated text data of a subtree, as textContent. -/
def textContent : El → List Char
  | .txt s => s
  | .elem _ _ ch => textContentList ch
  termination_by e => (sizeOf e, 0)

/-- Text data of a node list. -/
def textContentList : List El → List Char
  | [] => []
  | e :: rest => textContent e ++ textContentList rest
  termination_by l => (sizeOf l, 1)

end

mutual

/-- First node of a list matching p in document order, searching
subtrees inclusively. -/
def qsList (p : El → Bool) : List El → Option El
  | [] => none
  | e :: rest =>
    match qsInc p e with
    | some r => some r
    | none => qsList p rest
  termination_by l => (sizeOf l, 1)

/-- First match of p in the subtree rooted at e, the root included;
text nodes have no children to search. -/
def qsInc (p : El → Bool) (e : El) : Option El :=
  if p e then some e
  else
    match e with
    | .txt _ => none
    | .elem _ _ ch => qsList p ch
  termination_by (sizeOf e, 0)

end

/-- Embedding of querySelector with a simple selector: first matching
proper descendant in document order. -/
def querySel (p : El → Bool) (e : El) : Option El :=
  qsList p (childrenOf e)

mutual

/-- Worker for a descendant-combinator selector: inside records whether
an ancestor matching the outer selector has been passed. -/
def qsdList (outer inner : El → Bool) (inside : Bool) : List El → Option El
  | [] => none
  | e :: rest =>
    match qsdInc outer inner inside e with
    | some r => some r
    | none => qsdList outer inner inside rest
  termination_by l => (sizeOf l, 1)

/-- Subtree worker for a descendant-combinator selector. -/
def qsdInc (outer inner : El → Bool) (inside : Bool) (e : El) : Option El :=
  if inside ∧ inner e then some e
  else
    match e with
    | .txt _ => none
    | .elem _ _ ch => qsdList outer inner (inside ∨ outer e) ch
  termination_by (sizeOf e, 0)

end

/-- Embedding of querySelector with a descendant combinator (outer
selector, space, inner selector): first proper descendant matching the
inner selector below an outer-selector match, the query root counting as
a possible outer match. -/
def querySelDesc (outer inner : El → Bool) (e : El) : Option El :=
  qsdList outer inner (outer e) (childrenOf e)

/-- JS truthiness filter on an optional attribute or text value: null
and the empty string are falsy. -/
def truthy : Option (List Char) → Option (List Char)
  | some l => if l = [] then none else some l
  | none => none

/-!
Math rules (converters/turndown-converter.ts, addMathRules, lines 318
to 395, and extractLatex, lines 400 to 426).  The MathMLToLaTeX library
call is an external dependency, passed in as conv; an error value is a
throw of the library.  Replacement functions receive the ancestor chain
of the node (nearest first); only the raw math rule reads it, through
closest.
-/

/-- Block math wrapper. -/
def blockMath (latex : List Char) : List Char :=
  ("\n$$\n").data ++ latex ++ ("\n$$\n").data

/-- Inline math wrapper. -/
def inlineMath (latex : List Char) : List Char :=
  '$' :: latex ++ ['$']

/-- Space-padded inline math wrapper of the raw math rule. -/
def inlineSpaced (latex : List Char) : List Char :=
  (" $").data ++ latex ++ ("$ ").data

/-- Filter of the MathJax rule: node name mjx-container. -/
def mathJaxFilter (node : El) : Bool :=
  nameOf node = ("mjx-container").data

/-- Filter of the raw math rule: math element or a MediaWiki math
wrapper class. -/
def mathFilter (node : El) : Bool :=
  nameOf node = ("math").data ∨
  hasClass node (("mwe-math-element").data) ∨
  hasClass node (("mwe-math-fallback-image-inline").data) ∨
  hasClass node (("mwe-math-fallback-image-display").data)

/-- Filter of the KaTeX rule: math or katex class. -/
def katexFilter (node : El) : Bool :=
  hasClass node (("math").data) ∨ hasClass node (("katex").data)

/-- Embedding of closest for the table selector: the node itself or any
ancestor is a table element. -/
def closestIsTable (node : El) (anc : List El) : Bool :=
  nameOf node = ("table").data ∨ anc.any (fun e => nameOf e = ("table").data)

/-- Embedding of the MathJax replacement: latex from the assistive
MathML inside the container, block when the math element declares
display block; conversion errors are caught and the child content
returned.  The ancestor chain is not consulted. -/
def mathJaxRepl (conv : El → Except Unit (List Char)) (_anc : List El)
    (content : List Char) (node : El) : List Char :=
  match querySel (fun e => nameOf e = ("mjx-assistive-mml").data) node with
  | none => content
  | some am =>
    match querySel (fun e => nameOf e = ("math").data) am with
    | none => content
    | some m =>
      match conv m with
      | .error _ => content
      | .ok latex =>
        if getAttr m (("display").data) = some (("block").data)
        then blockMath latex else inlineMath latex

/-- Embedding of extractLatex: data-latex or alttext on a math element
itself, else the alttext of a math descendant carrying one, else an
embedded TeX annotated payload, else the library conversion of the math
markup (which may throw), else an image alt text or the empty string. -/
def extractLatexE (conv : El → Except Unit (List Char)) (element : El) :
    Except Unit (List Char) :=
  let selfMath := nameOf element = ("math").data
  let step1 : Option (List Char) :=
    if selfMath then
      match truthy (getAttr element (("data-latex").data)) with
      | some l => some (jsTrim l)
      | none =>
        match truthy (getAttr element (("alttext").data)) with
        | some l => some (jsTrim l)
        | none => none
    else none
  let step2 : Option (List Char) :=
    match querySel (fun e => nameOf e = ("math").data ∧
                             (getAttr e (("alttext").data)).isSome) element with
    | some m =>
      match truthy (getAttr m (("alttext").data)) with
      | some l => some (jsTrim l)
      | none => none
    | none => none
  let step3 : Option (List Char) :=
    match querySel (fun e => nameOf e = (("annotation").data) ∧
                             getAttr e (("encoding").data) =
                               some (("application/x-tex").data)) element with
    | some a =>
      match truthy (textContent a) with
      | some l => some (jsTrim l)
      | none => none
    | none => none
  match step1 <|> step2 <|> step3 with
  | some l => .ok l
  | none =>
    match (if selfMath then some element
           else querySel (fun e => nameOf e = ("math").data) element) with
    | some m => conv m
    | none =>
      .ok (((querySel (fun e => nameOf e = ("img").data) element).bind
              (fun i => getAttr i (("alt").data))).getD [])

/-- Embedding of the raw math rule replacement: extract latex (an
uncaught library throw propagates as the error value), then block form
only outside tables for display math, else the space-padded inline
form. -/
def mathRepl (conv : El → Except Unit (List Char)) (anc : List El)
    (_content : List Char) (node : El) : Except Unit (List Char) :=
  match extractLatexE conv node with
  | .error e => .error e
  | .ok latex0 =>
    let latex := jsTrim latex0
    let isInTable := closestIsTable node anc
    if (¬ isInTable) ∧
       (getAttr node (("display").data) = some (("block").data) ∨
        hasClass node (("mwe-math-fallback-image-display").data)) then
      .ok (blockMath latex)
    else .ok (inlineSpaced latex)

/-- Embedding of the KaTeX replacement: latex from the data attribute,
else the annotated TeX payload under the KaTeX MathML wrapper, else the
visible text; inline when the math-inline class is present or a MathML
math descendant does not declare display block.  The ancestor chain is
not consulted. -/
def katexRepl (_anc : List El) (_content : List Char) (node : El) : List Char :=
  let l2 :=
    match truthy (getAttr node (("data-latex").data)) with
    | some l => l
    | none =>
      ((querySelDesc (fun e => hasClass e (("katex-mathml").data))
          (fun e => nameOf e = (("annotation").data) ∧
                    getAttr e (("encoding").data) =
                      some (("application/x-tex").data)) node).bind
        (fun a => truthy (textContent a))).getD []
  let latex := if l2 = [] then jsTrim (textContent node) else l2
  let mathElement :=
    querySelDesc (fun e => hasClass e (("katex-mathml").data))
      (fun e => nameOf e = ("math").data) node
  let isInline := hasClass node (("math-inline").data) ||
    (match mathElement with
     | some m => !(getAttr m (("display").data) == some (("block").data))
     | none => false)
  if isInline then inlineMath latex else blockMath latex

/-!
Complex-table sanitization (converters/turndown-converter.ts,
cleanupTableHTML, lines 141 to 162).  The mutable DOM is embedded by
explicit state passing: cloneNode yields a fresh tree whose value equals
the original, cleanElement maps a subtree to its post-mutation state,
and cleanupTableHTML returns the serialized clone together with the
post-state of the original table node.
-/

/-- The fixed attribute allow-list of cleanupTableHTML. -/
def allowedAttributes : List (List Char) :=
  [("src").data, ("href").data, ("style").data, ("align").data,
   ("width").data, ("height").data, ("rowspan").data, ("colspan").data,
   ("bgcolor").data, ("scope").data, ("valign").data, ("headers").data]

mutual

/-- Post-state of cleanElement on a subtree: attributes outside the
allow-list removed, element children cleaned recursively; text children
are not touched by the childNodes loop. -/
def cleanElement : El → El
  | .txt s => .txt s
  | .elem n attrs ch =>
    .elem n (attrs.filter (fun p => p.1 ∈ allowedAttributes))
      (cleanElementList ch)
  termination_by e => (sizeOf e, 0)

/-- Post-state of the child loop of cleanElement. -/
def cleanElementList : List El → List El
  | [] => []
  | e :: rest => cleanElement e :: cleanElementList rest
  termination_by l => (sizeOf l, 1)

end

/-- Deep clone: a fresh tree whose value is that of the original. -/
def cloneNode (e : El) : El := e

/-- Attribute serialization. -/
def serializeAttrs : List (List Char × List Char) → List Char
  | [] => []
  | (a, v) :: rest =>
    (' ' :: a ++ ('=' :: '"' :: v) ++ ['"']) ++ serializeAttrs rest

mutual

/-- Serialization of a subtree, as outerHTML. -/
def serializeEl : El → List Char
  | .txt s => s
  | .elem n attrs ch =>
    ('<' :: n ++ serializeAttrs attrs ++ ['>']) ++
    serializeEls ch ++ ('<' :: '/' :: n ++ ['>'])
  termination_by e => (sizeOf e, 0)

/-- Serialization of a node list. -/
def serializeEls : List El → List Char
  | [] => []
  | e :: rest => serializeEl e ++ serializeEls rest
  termination_by l => (sizeOf l, 1)

end

/-- Embedding of cleanupTableHTML: the clone of the table is cleaned and
serialized; the original table node is never handed to cleanElement, so
its post-state is itself.  The first component is the returned markup,
the second the post-state of the caller's table node. -/
def cleanupTableHTML (table : El) : List Char × El :=
  let tableClone := cloneNode table
  (serializeEl (cleanElement tableClone), table)

/-!
Auxiliary predicates and concrete instances used by the theorems.
-/

/-- Decidable equality of walk outcomes. -/
instance : DecidableEq (Except Unit (List Char)) := fun a b =>
  match a, b with
  | .ok x, .ok y =>
    if h : x = y then .isTrue (by rw [h]) else .isFalse (by simp [h])
  | .error x, .error y =>
    .isTrue (by rw [show x = y from rfl])
  | .ok _, .error _ => .isFalse (by simp)
  | .error _, .ok _ => .isFalse (by simp)

/-- Leading-whitespace test. -/
def hasLeadingWS (l : List Char) : Bool :=
  match l.head? with | some c => wsChar c | none => false

/-- Trailing-whitespace test. -/
def hasTrailingWS (l : List Char) : Bool :=
  match l.getLast? with | some c => wsChar c | none => false

/-- A well-shaped output line: nonempty, newline free, not ending in
whitespace. -/
def lineOK (l : List Char) : Bool :=
  (!l.isEmpty) && l.all (fun c => !(c == '\n')) &&
  (l.getLast?.elim false (fun c => !wsChar c))

/-- Characters typical of srcset candidate file names; they are all safe
in URL paths and never scheme or delimiter characters. -/
def srcsetSafe (c : Char) : Bool :=
  c.isAlpha ∨ c.isDigit ∨ c = '.' ∨ c = '-' ∨ c = '_'

/-- Base URL with a filename path segment. -/
def c2Base : URLRec :=
  { scheme := ("http").data, host := some (("example.com").data),
    path := ("/page.html").data, query := none, frag := none }

/-- Base URL under https with a filename path segment. -/
def c2BaseData : URLRec :=
  { scheme := ("https").data, host := some (("example.com").data),
    path := ("/a/b.html").data, query := none, frag := none }

/-- Base URL with a root path. -/
def c5Base : URLRec :=
  { scheme := ("http").data, host := some (("example.com").data),
    path := ("/").data, query := none, frag := none }

/-- One-row simple table whose only cell content contains a pipe. -/
def c3cexRows : List (List TCell) :=
  [[⟨("A|B").data, false, false⟩]]

/-- The scenario table: header row A B, body row 1 2, no spans. -/
def c3ScenRows : List (List TCell) :=
  [[⟨("A").data, false, false⟩, ⟨("B").data, false, false⟩],
   [⟨("1").data, false, false⟩, ⟨("2").data, false, false⟩]]

/-- A MathJax container with assistive MathML declaring display block. -/
def mjxBlockEx : El :=
  .elem (("mjx-container").data) []
    [.elem (("mjx-assistive-mml").data) []
      [.elem (("math").data) [((("display").data), (("block").data))]
        [.txt (("x").data)]]]

/-- Ancestor chain of a node sitting inside a table cell. -/
def tdAnc : List El :=
  [.elem (("td").data) [] [], .elem (("tr").data) [] [],
   .elem (("table").data) [] []]

/-- A constant stand-in for the MathMLToLaTeX conversion. -/
def convX : El → Except Unit (List Char) := fun _ => .ok (("x").data)

/-- A math element carrying display block and an explicit latex
attribute. -/
def c1wNode : El :=
  .elem (("math").data)
    [((("data-latex").data), (("y").data)),
     ((("display").data), (("block").data))] []

/-- A table with attributes outside the allow-list on itself and inside
a cell. -/
def c9Ex : El :=
  .elem (("table").data) [((("data-x").data), (("1").data))]
    [.elem (("td").data)
      [((("colspan").data), (("2").data)), ((("data-y").data), (("z").data))]
      []]

/-!
Theorems.  Generic lemmas about the string primitives come first; the
claim theorems, counterexamples and witnesses follow at the end.
-/

theorem head?_append_some {α : Type} {a : List α} (b : List α) {c : α}
    (h : a.head? = some c) : (a ++ b).head? = some c := by
  cases a <;> simp_all

theorem dropWhile_head?_not (p : Char → Bool) :
    ∀ (l : List Char) (c : Char), (l.dropWhile p).head? = some c → p c = false := by
  intro l
  induction l with
  | nil => intro c h; simp at h
  | cons x xs ih =>
    intro c h
    rw [List.dropWhile_cons] at h
    by_cases hx : p x = true
    · rw [if_pos hx] at h; exact ih c h
    · rw [if_neg hx] at h
      simp only [List.head?_cons, Option.some.injEq] at h
      subst h
      simpa using hx

theorem jsTrim_pre (l : List Char) :
    l.dropWhile wsChar =
      jsTrim l ++ ((l.dropWhile wsChar).reverse.takeWhile wsChar).reverse := by
  rw [jsTrim]
  conv_lhs =>
    rw [← List.reverse_reverse (l.dropWhile wsChar),
        ← List.takeWhile_append_dropWhile (p := wsChar)
          (l := (l.dropWhile wsChar).reverse)]
  rw [List.reverse_append]

theorem jsTrim_decomposition (l : List Char) :
    ∃ a b, l = a ++ jsTrim l ++ b := by
  refine ⟨l.takeWhile wsChar,
          ((l.dropWhile wsChar).reverse.takeWhile wsChar).reverse, ?_⟩
  conv_lhs => rw [← List.takeWhile_append_dropWhile (p := wsChar) (l := l),
                  jsTrim_pre l]
  rw [List.append_assoc]

theorem hasLeadingWS_jsTrim (l : List Char) : hasLeadingWS (jsTrim l) = false := by
  unfold hasLeadingWS
  cases h : (jsTrim l).head? with
  | none => rfl
  | some c =>
    have h2 : (l.dropWhile wsChar).head? = some c := by
      rw [jsTrim_pre l]; exact head?_append_some _ h
    exact dropWhile_head?_not wsChar _ c h2

theorem hasTrailingWS_jsTrim (l : List Char) : hasTrailingWS (jsTrim l) = false := by
  unfold hasTrailingWS
  have hrev : jsTrim l =
      ((l.dropWhile wsChar).reverse.dropWhile wsChar).reverse := rfl
  cases h : (jsTrim l).getLast? with
  | none => rfl
  | some c =>
    rw [hrev, List.getLast?_reverse] at h
    exact dropWhile_head?_not wsChar _ c h

theorem has3NL_append_right (s t : List Char) (h : has3NL t = true) :
    has3NL (s ++ t) = true := by
  induction s with
  | nil => simpa
  | cons c cs ih => rw [List.cons_append, has3NL]; simp [ih]

theorem has3NL_append_left (s t : List Char) (h : has3NL s = true) :
    has3NL (s ++ t) = true := by
  induction s with
  | nil => simp [has3NL] at h
  | cons c cs ih =>
    rw [has3NL] at h
    rw [List.cons_append, has3NL]
    rcases Bool.or_eq_true_iff.mp h with h1 | h2
    · simp only [Bool.and_eq_true, beq_iff_eq] at h1
      obtain ⟨⟨hc, hh⟩, ht⟩ := h1
      apply Bool.or_eq_true_iff.mpr
      left
      have hh2 : (cs ++ t).head? = some '\n' := head?_append_some _ hh
      have ht2 : (cs ++ t).tail.head? = some '\n' := by
        cases cs with
        | nil => simp at hh
        | cons x xs =>
          simp only [List.cons_append, List.tail_cons]
          exact head?_append_some _ ht
      simp [hc, hh2, ht2]
    · apply Bool.or_eq_true_iff.mpr
      right
      exact ih h2

theorem has3NL_middle (a m b : List Char) (h : has3NL m = true) :
    has3NL (a ++ m ++ b) = true :=
  has3NL_append_left (a ++ m) b (has3NL_append_right a m h)

theorem collapseNL_cons3NL (rest : List Char) :
    collapseNL ('\n' :: '\n' :: '\n' :: rest) =
      collapseNL ('\n' :: '\n' :: rest) := by
  rw [collapseNL.eq_def]
  rfl

theorem collapseNL_cons₃ (c : Char) (cs : List Char)
    (h : ∀ rest, c = '\n' → cs = '\n' :: '\n' :: rest → False) :
    collapseNL (c :: cs) = c :: collapseNL cs := by
  rw [collapseNL.eq_def]
  split
  · rename_i heq; simp at heq
  · rename_i rest heq
    exfalso
    injection heq with h1 h2
    exact h rest h1 h2
  · rename_i heq
    injection heq with h1 h2
    rw [← h1, ← h2]

theorem collapseNL_head? (l : List Char) :
    (collapseNL l).head? = l.head? := by
  induction l using collapseNL.induct with
  | case1 => simp [collapseNL]
  | case2 rest ih => rw [collapseNL_cons3NL, ih]; rfl
  | case3 c cs hcond ih => rw [collapseNL_cons₃ c cs hcond]; simp

theorem has3NL_collapseNL (l : List Char) :
    has3NL (collapseNL l) = false := by
  induction l using collapseNL.induct with
  | case1 => simp [collapseNL, has3NL]
  | case2 rest ih => rw [collapseNL_cons3NL]; exact ih
  | case3 c cs hcond ih =>
    rw [collapseNL_cons₃ c cs hcond, has3NL, ih, Bool.or_false]
    by_cases hc : c = '\n'
    · subst hc
      cases cs with
      | nil => simp [collapseNL]
      | cons d ds =>
        by_cases hd : d = '\n'
        · subst hd
          have hds : (collapseNL ds).head? ≠ some '\n' := by
            rw [collapseNL_head?]
            intro hx
            cases ds with
            | nil => simp at hx
            | cons y ys =>
              simp only [List.head?_cons, Option.some.injEq] at hx
              subst hx
              exact hcond ys rfl rfl
          have hsub : collapseNL ('\n' :: ds) = '\n' :: collapseNL ds := by
            apply collapseNL_cons₃
            intro rest _ hds2
            exact hcond ('\n' :: rest) rfl (by rw [hds2])
          rw [hsub]
          simp only [List.head?_cons, List.tail_cons]
          cases hval : (collapseNL ds).head? with
          | none => simp
          | some x =>
            have hx : (x == '\n') = false := by
              simp only [beq_eq_false_iff_ne, ne_eq]
              intro hxx
              exact hds (by rw [hval, hxx])
            simp [hx]
        · have hsub : collapseNL (d :: ds) = d :: collapseNL ds := by
            apply collapseNL_cons₃
            intro rest hdd _
            exact hd hdd
          rw [hsub]
          simp [hd]
    · simp [hc]

/-- C7: when the turndown tree walk throws, convert catches the error at
the top level and returns the marked partial-result string embedding the
URL-processed HTML instead of propagating the exception. -/
theorem c7_catch_partial_result (html : List Char) (e : Unit) :
    convertResult html (Except.error e) = errHeader ++ html := rfl

/-- C10: when conversion completes without an internal exception, the
string returned by convert has no leading and no trailing whitespace. -/
theorem c10_output_trimmed (html md : List Char) :
    hasLeadingWS (convertResult html (Except.ok md)) = false ∧
    hasTrailingWS (convertResult html (Except.ok md)) = false :=
  ⟨hasLeadingWS_jsTrim (postProcess md), hasTrailingWS_jsTrim (postProcess md)⟩

/-- C8 counterexample: the claim fails on the error path.  A table with
no rows makes the table rule throw (first conjunct), and the catch
branch of convert then returns the partial-result string embedding the
URL-processed HTML verbatim, three-newline runs included (second
conjunct). -/
theorem c8_counterexample :
    tableRule [] ([] : List (List TCell)) = Except.error () ∧
    has3NL (convertResult (("<table></table><p>a\n\n\n\nb</p>").data)
             (Except.error ())) = true := by
  constructor
  · rfl
  · decide

/-- C8 amended: on every run in which the tree walk succeeds, the string
returned by convert never contains three or more consecutive newlines;
the catch branch may return such runs inside the embedded HTML. -/
theorem c8_success_no_triple_newline (html md : List Char) :
    has3NL (convertResult html (Except.ok md)) = false := by
  have h1 : has3NL (postProcess md) = false := has3NL_collapseNL _
  show has3NL (jsTrim (postProcess md)) = false
  by_contra hcon
  rw [Bool.not_eq_false] at hcon
  obtain ⟨a, b, hab⟩ := jsTrim_decomposition (postProcess md)
  rw [hab] at h1
  rw [has3NL_middle a _ b hcon] at h1
  simp at h1

/-- C9: the complex-table sanitization works on a deep clone: the
original table node keeps every attribute (first conjunct, for every
tree), while the emitted markup is the sanitized serialization, shown on
a table carrying attributes outside the allow-list. -/
theorem c9_clone_preserves_original :
    (∀ t : El, (cleanupTableHTML t).2 = t) ∧
    (cleanupTableHTML c9Ex).1 =
      ("<table><td colspan=\"2\"></td></table>").data ∧
    getAttr (cleanupTableHTML c9Ex).2 (("data-x").data) = some (("1").data) := by
  refine ⟨fun t => rfl, ?_, ?_⟩
  · simp [cleanupTableHTML, cloneNode, c9Ex, cleanElement, cleanElementList,
          serializeEl, serializeEls, serializeAttrs, allowedAttributes]
  · decide

/-- C1 counterexample: a JS-rendered math container declaring display
block that sits inside a table cell is still rendered in the block form,
not in the inline form, because the MathJax rule never consults the
ancestor chain. -/
theorem c1_counterexample :
    closestIsTable mjxBlockEx tdAnc = true ∧
    mathJaxFilter mjxBlockEx = true ∧
    mathJaxRepl convX tdAnc (("c").data) mjxBlockEx = ("\n$$\nx\n$$\n").data ∧
    ("\n$$\nx\n$$\n").data ≠ ("$x$").data ∧
    ("\n$$\nx\n$$\n").data ≠ (" $x$ ").data := by
  refine ⟨by decide, by decide, ?_, by decide, by decide⟩
  simp [mathJaxRepl, querySel, qsList, qsInc, mjxBlockEx, convX, nameOf,
        childrenOf, getAttr, blockMath]

/-- C1 amended: only the raw semantic math rule forces inline rendering
inside tables: whenever its node has a table among itself or its
ancestors and latex extraction succeeds, the output is the space-padded
inline form regardless of the declared display mode; the JS-rendered
(MathJax) and rendered-math-library (KaTeX) rules ignore the ancestor
chain entirely, so their block or inline choice depends only on the
display indicators. -/
theorem c1_math_rule_table_inline :
    (∀ (conv : El → Except Unit (List Char)) (anc : List El)
       (c : List Char) (node : El) (latex : List Char),
       closestIsTable node anc = true →
       extractLatexE conv node = Except.ok latex →
       mathRepl conv anc c node = Except.ok (inlineSpaced (jsTrim latex))) ∧
    (∀ (conv : El → Except Unit (List Char)) (anc anc2 : List El)
       (c : List Char) (node : El),
       mathJaxRepl conv anc c node = mathJaxRepl conv anc2 c node) ∧
    (∀ (anc anc2 : List El) (c c2 : List Char) (node : El),
       katexRepl anc c node = katexRepl anc2 c2 node) := by
  refine ⟨?_, fun _ _ _ _ _ => rfl, fun _ _ _ _ _ => rfl⟩
  intro conv anc c node latex hin hex
  rw [mathRepl, hex]
  simp only [hin]
  simp

/-- C1 witness: a display-block math element carrying explicit latex, in
a table-cell ancestor chain, renders in the space-padded inline form. -/
theorem c1_witness :
    mathRepl convX tdAnc [] c1wNode = Except.ok ((" $y$ ").data) := by
  have h := c1_math_rule_table_inline.1 convX tdAnc [] c1wNode (("y").data)
    (by decide) (by decide)
  rw [h]
  decide

theorem liOut_ol_shape (bullet : Char) (sOpt : Option Int) (r : List Bool)
    (k : Nat) (t : List Char) (sk : LKind) (subs : List Li) (hasNext : Bool)
    (h : countLeadingLists r = 0) :
    ∃ rest, liOut bullet (LKind.ol sOpt) r k (Li.mk t sk subs) hasNext =
      intChars (match sOpt with
                | some v => v + ((k : Int) + 1) - 1
                | none => (k : Int) + 1) ++ ('.' :: ' ' :: rest) := by
  cases sOpt with
  | some v =>
    exact ⟨_, by
      rw [liOut.eq_2, h]
      simp only [Nat.add_zero, Nat.add_sub_cancel, List.replicate_zero,
                 List.nil_append, List.append_assoc]
      rfl⟩
  | none =>
    exact ⟨_, by
      rw [liOut.eq_3, h]
      simp only [Nat.add_zero, Nat.add_sub_cancel, List.replicate_zero,
                 List.nil_append, List.append_assoc]
      rfl⟩

/-- C4: in the ordered branch of the list-item rule, an item at
zero-based index k among the parent children renders the number start
plus k when the list carries a start value, else one plus k; the number
is computed from the child position alone, so it is unaffected by any
content filtering. -/
theorem c4_ordered_numbering (bullet : Char) (r : List Bool) (k : Nat)
    (item : Li) (hasNext : Bool) (h : countLeadingLists r = 0) :
    (∀ s : Int, ∃ rest, liOut bullet (LKind.ol (some s)) r k item hasNext =
       intChars (s + (k : Int)) ++ ('.' :: ' ' :: rest)) ∧
    (∃ rest, liOut bullet (LKind.ol none) r k item hasNext =
       intChars (1 + (k : Int)) ++ ('.' :: ' ' :: rest)) := by
  obtain ⟨t, sk, subs⟩ := item
  constructor
  · intro s
    obtain ⟨rest, hrw⟩ := liOut_ol_shape bullet (some s) r k t sk subs hasNext h
    refine ⟨rest, ?_⟩
    rw [hrw]
    have harith : s + ((k : Int) + 1) - 1 = s + (k : Int) := by ring
    simp only [harith]
  · obtain ⟨rest, hrw⟩ := liOut_ol_shape bullet none r k t sk subs hasNext h
    refine ⟨rest, ?_⟩
    rw [hrw]
    have harith : (k : Int) + 1 = 1 + (k : Int) := by ring
    simp only [harith]

/-- C4 witness: the third item of an ordered list starting at five is
numbered seven. -/
theorem c4_witness :
    ∃ rest, liOut '-' (LKind.ol (some 5)) [false] 2
      (Li.mk (("C").data) LKind.ul []) false =
      intChars 7 ++ ('.' :: ' ' :: rest) :=
  (c4_ordered_numbering '-' [false] 2 (Li.mk (("C").data) LKind.ul []) false
    (by decide)).1 5

/-- C2 counterexample: a fragment-only reference is not left untouched;
it is rewritten to its absolutized form against the directory-normalized
base. -/
theorem c2_counterexample :
    makeUrlAbsolute (("#sec").data) c2Base =
      some (("http://example.com/#sec").data) ∧
    (("http://example.com/#sec").data) ≠ (("#sec").data) :=
  ⟨by decide, by decide⟩

theorem makeUrlAbsolute_http (v : List Char) (b u : URLRec) (hv : v ≠ [])
    (hres : resolve v (dirNormalize b) = some u)
    (hsch : u.scheme = ("http").data ∨ u.scheme = ("https").data) :
    makeUrlAbsolute v b = some (href u) := by
  unfold makeUrlAbsolute
  rw [if_neg hv]
  simp only [hres]
  rw [if_pos hsch]

/-- C2 amended: every nonempty value that resolves against the
directory-normalized base to an http or https URL — covering
already-absolute http(s) URLs, protocol-relative, fragment-only and
relative references alike — is rewritten to that resolution's
serialization rather than left unchanged; values with other schemes take
the special-case branch, a data URI without a domain-like second segment
being replaced by the base directory URL (second conjunct). -/
theorem c2_url_resolution :
    (∀ (v : List Char) (b u : URLRec),
       v ≠ [] →
       resolve v (dirNormalize b) = some u →
       u.scheme = ("http").data ∨ u.scheme = ("https").data →
       makeUrlAbsolute v b = some (href u)) ∧
    makeUrlAbsolute (("data:image/png;base64,AAAA").data) c2BaseData =
      some (("https://example.com/a/").data) := by
  constructor
  · intro v b u hv hres hsch
    exact makeUrlAbsolute_http v b u hv hres hsch
  · decide

/-- C2 witness: a plain relative path resolves to the base directory
followed by the path. -/
theorem c2_witness :
    makeUrlAbsolute (("a.png").data) c2Base =
      some (("http://example.com/a.png").data) := by
  have h := c2_url_resolution.1 (("a.png").data) c2Base
    { scheme := ("http").data, host := some (("example.com").data),
      path := ("/a.png").data, query := none, frag := none }
    (by decide) (by decide) (by decide)
  rw [h]
  decide

theorem splitChar_ne_nil (sep : Char) (l : List Char) : splitChar sep l ≠ [] := by
  cases l with
  | nil => simp [splitChar]
  | cons c cs =>
    rw [splitChar]
    cases h : splitChar sep cs with
    | nil => simp
    | cons x t =>
      show ¬(if c = sep then [] :: x :: t else (c :: x) :: t) = []
      split <;> simp

theorem splitChar_length (sep : Char) (l : List Char) :
    (splitChar sep l).length = l.count sep + 1 := by
  induction l with
  | nil => simp [splitChar]
  | cons c cs ih =>
    rw [splitChar]
    cases h : splitChar sep cs with
    | nil => exact absurd h (splitChar_ne_nil sep cs)
    | cons x t =>
      rw [h] at ih
      show (if c = sep then [] :: x :: t else (c :: x) :: t).length =
        (c :: cs).count sep + 1
      by_cases hc : c = sep
      · rw [if_pos hc, List.count_cons]
        simp [hc, ih]
      · rw [if_neg hc, List.count_cons]
        simp only [List.length_cons] at ih ⊢
        have hbeq : (c == sep) = false := by simp [hc]
        simp [hbeq, ih]

theorem not_mem_replaceChar {c : Char} {l : List Char} (a b : Char)
    (h : c ∉ l) (hb : c ≠ b) : c ∉ replaceChar a b l := by
  intro hmem
  rw [replaceChar] at hmem
  obtain ⟨x, hx, hfx⟩ := List.mem_map.mp hmem
  by_cases hxa : x = a
  · rw [if_pos hxa] at hfx; exact hb hfx.symm
  · rw [if_neg hxa] at hfx; exact h (hfx ▸ hx)

theorem not_mem_jsTrim {c : Char} {l : List Char} (h : c ∉ l) :
    c ∉ jsTrim l := by
  intro hmem
  obtain ⟨a, b, hab⟩ := jsTrim_decomposition l
  apply h
  rw [hab]
  simp [hmem]

theorem escapePipes_of_not_mem {l : List Char} (h : '|' ∉ l) :
    escapePipes l = l := by
  induction l with
  | nil => rfl
  | cons c cs ih =>
    rw [escapePipes]
    have hc : ¬ c = '|' := fun he => h (by simp [he])
    rw [if_neg hc, ih (fun hm => h (by simp [hm]))]

theorem processCellContent_not_mem {content : List Char}
    (h : '|' ∉ content) : '|' ∉ processCellContent content := by
  rw [processCellContent]
  have h1 : '|' ∉ replaceChar '\n' ' ' content :=
    not_mem_replaceChar '\n' ' ' h (by decide)
  have h2 : '|' ∉ jsTrim (replaceChar '\n' ' ' content) := not_mem_jsTrim h1
  rw [escapePipes_of_not_mem h2]
  exact h2

theorem joinSep_count_pipe (ls : List (List Char)) (hne : ls ≠ [])
    (h : ∀ x ∈ ls, '|' ∉ x) :
    (joinSep ((" | ").data) ls).count '|' = ls.length - 1 := by
  induction ls with
  | nil => exact absurd rfl hne
  | cons x rest ih =>
    cases rest with
    | nil =>
      rw [joinSep]
      simp [List.count_eq_zero.mpr (h x (by simp))]
    | cons y t =>
      rw [joinSep, List.count_append, List.count_append]
      rw [ih (by simp) (fun z hz => h z (List.mem_cons_of_mem x hz))]
      rw [List.count_eq_zero.mpr (h x (by simp))]
      have hsep : ((" | ").data).count '|' = 1 := by decide
      rw [hsep]
      simp only [List.length_cons]
      omega

theorem rowLine_count (cells : List TCell) (hne : cells ≠ [])
    (h : ∀ c ∈ cells, '|' ∉ c.content) :
    (rowLine cells).count '|' = cells.length + 1 := by
  rw [rowLine, List.count_append, List.count_append]
  have hmap : ∀ x ∈ cells.map (fun c => processCellContent c.content), '|' ∉ x := by
    intro x hx
    obtain ⟨c, hc, hcx⟩ := List.mem_map.mp hx
    rw [← hcx]
    exact processCellContent_not_mem (h c hc)
  rw [joinSep_count_pipe _ (by simpa using hne) hmap]
  have h1 : (("| ").data).count '|' = 1 := by decide
  have h2 : ((" |").data).count '|' = 1 := by decide
  rw [h1, h2, List.length_map]
  cases cells with
  | nil => exact absurd rfl hne
  | cons a t => simp only [List.length_cons]; omega

theorem elMatchLen_none (prev : Option Char) (l : List Char)
    (h : '[' ∉ l) : elMatchLen prev l = none := by
  rw [elMatchLen]
  have hdrop : ∀ r2 : List Char,
      List.drop (List.takeWhile (fun x => decide (x = '\n')) l).length l =
        '[' :: ']' :: '(' :: r2 → False := by
    intro r2 heq
    apply h
    apply List.drop_subset (List.takeWhile (fun x => decide (x = '\n')) l).length l
    rw [heq]
    simp
  split
  · split
    · rfl
    · split
      · rename_i r2 heq
        exact absurd heq (fun hx => hdrop r2 hx)
      · rfl
  · split
    · rfl
    · split
      · rename_i r2 heq
        exact absurd heq (fun hx => hdrop r2 hx)
      · rfl

theorem removeEmptyLinksGo_id (prev : Option Char) (l : List Char)
    (h : '[' ∉ l) : removeEmptyLinksGo prev l = l := by
  induction l generalizing prev with
  | nil => rw [removeEmptyLinksGo]
  | cons c cs ih =>
    rw [removeEmptyLinksGo, elMatchLen_none prev (c :: cs) h]
    rw [ih (some c) (fun hm => h (List.mem_cons_of_mem c hm))]

theorem collapseNL_eq_self (l : List Char) (h : has3NL l = false) :
    collapseNL l = l := by
  induction l using collapseNL.induct with
  | case1 => rw [collapseNL]
  | case2 rest ih =>
    exfalso
    rw [has3NL] at h
    simp at h
  | case3 c cs hcond ih =>
    rw [collapseNL_cons₃ c cs hcond]
    rw [has3NL] at h
    rcases Bool.or_eq_false_iff.mp h with ⟨_, h2⟩
    rw [ih h2]

/-- C3 counterexample: the separator row is sized from a pipe split of
the rendered first row, so a first-row cell whose converted content
contains a pipe character yields two dash triples for a single cell. -/
theorem c3_counterexample :
    (c3cexRows.headD []).length = 1 ∧
    tableRule [] c3cexRows =
      Except.ok (('\n' :: '\n' ::
          joinSep ['\n'] [rowLine (c3cexRows.headD []), sepRowOf 2]) ++
        ['\n', '\n']) ∧
    sepRowOf 2 ≠ sepRowOf 1 := by
  refine ⟨by decide, by decide, by decide⟩

/-- C3 amended: for every simple table with a nonempty first row whose
converted first-row cell contents are pipe free, the output is the pipe
table whose separator row has exactly one dash triple per first-row cell
(first conjunct); the literal scenario conversion holds as stated
(second conjunct). -/
theorem c3_simple_table_shape :
    (∀ (ch : List Char) (r0 : List TCell) (rest : List (List TCell)),
       r0 ≠ [] →
       (∀ r ∈ r0 :: rest, ∀ c ∈ r, c.hasColspan = false ∧ c.hasRowspan = false) →
       (∀ c ∈ r0, '|' ∉ c.content) →
       tableRule ch (r0 :: rest) =
         Except.ok (('\n' :: '\n' ::
             joinSep ['\n']
               (rowLine r0 :: sepRowOf r0.length :: rest.map rowLine)) ++
           ['\n', '\n'])) ∧
    convertResult [] (tableRule [] c3ScenRows) =
      ("| A | B |\n| --- | --- |\n| 1 | 2 |").data := by
  constructor
  · intro ch r0 rest hne hspan hpipe
    rw [tableRule]
    have hany : ((r0 :: rest).any fun r =>
        r.any fun c => decide (c.hasColspan = true ∨ c.hasRowspan = true)) = false := by
      rw [List.any_eq_false]
      intro r hr
      simp only [Bool.not_eq_true]
      rw [List.any_eq_false]
      intro c hc
      simp only [Bool.not_eq_true]
      have hcc := hspan r hr c hc
      simp [hcc.1, hcc.2]
    rw [if_neg (by rw [hany]; exact Bool.false_ne_true)]
    have hk : (splitChar '|' (rowLine r0)).length - 2 = r0.length := by
      rw [splitChar_length, rowLine_count r0 hne hpipe]
      omega
    simp only [hk]
  · have h1 : tableRule [] c3ScenRows =
        Except.ok (("\n\n| A | B |\n| --- | --- |\n| 1 | 2 |\n\n").data) := by
      decide
    rw [h1]
    show jsTrim (postProcess (("\n\n| A | B |\n| --- | --- |\n| 1 | 2 |\n\n").data)) = _
    rw [postProcess]
    have h2 : stripTitle (("\n\n| A | B |\n| --- | --- |\n| 1 | 2 |\n\n").data) =
        ("\n\n| A | B |\n| --- | --- |\n| 1 | 2 |\n\n").data := rfl
    rw [h2, removeEmptyLinksGo_id _ _ (by decide), collapseNL_eq_self _ (by decide)]
    decide

/-- C3 witness: the amended shape applied at the scenario table. -/
theorem c3_witness :
    tableRule [] c3ScenRows =
      Except.ok (("\n\n| A | B |\n| --- | --- |\n| 1 | 2 |\n\n").data) := by
  have h := c3_simple_table_shape.1 []
    [⟨("A").data, false, false⟩, ⟨("B").data, false, false⟩]
    [[⟨("1").data, false, false⟩, ⟨("2").data, false, false⟩]]
    (by decide) (by decide) (by decide)
  have he : c3ScenRows =
      [⟨("A").data, false, false⟩, ⟨("B").data, false, false⟩] ::
      [[⟨("1").data, false, false⟩, ⟨("2").data, false, false⟩]] := rfl
  rw [he, h]
  decide

theorem splitChar_not_mem (sep : Char) (l : List Char) (h : sep ∉ l) :
    splitChar sep l = [l] := by
  induction l with
  | nil => rfl
  | cons c cs ih =>
    rw [splitChar, ih (fun hm => h (List.mem_cons_of_mem c hm))]
    show (if c = sep then [] :: cs :: [] else (c :: cs) :: []) = [c :: cs]
    rw [if_neg (fun he => h (by simp [he]))]

theorem parseScheme_none (l : List Char) (h : ':' ∉ l) :
    parseScheme l = none := by
  cases l with
  | nil => rfl
  | cons c cs =>
    rw [parseScheme]
    split
    · show (match List.drop (List.takeWhile isSchemeChar (c :: cs)).length (c :: cs) with
            | ':' :: r => some (toLowerL (List.takeWhile isSchemeChar (c :: cs)), r)
            | x => none) = none
      split
      · rename_i r heq
        exfalso
        apply h
        apply List.drop_subset
          ((c :: cs).takeWhile isSchemeChar).length (c :: cs)
        rw [heq]
        simp
      · rfl
    · rfl

theorem breakAt_none (p : Char → Bool) (l : List Char)
    (h : ∀ c ∈ l, p c = false) : breakAt p l = (l, []) := by
  rw [breakAt]
  have h1 : ∀ m : List Char, (∀ c ∈ m, p c = false) →
      m.takeWhile (fun c => ¬ p c) = m ∧ m.dropWhile (fun c => ¬ p c) = [] := by
    intro m
    induction m with
    | nil => intro _; exact ⟨rfl, rfl⟩
    | cons c cs ih =>
      intro hm
      have hc : p c = false := hm c (by simp)
      have ihr := ih (fun x hx => hm x (List.mem_cons_of_mem c hx))
      rw [List.takeWhile_cons, List.dropWhile_cons]
      constructor
      · simp only [hc]
        simp [ihr.1]
        exact fun x hx => hm x (List.mem_cons_of_mem c hx)
      · simp only [hc]
        simp [ihr.2]
        exact fun x hx => hm x (List.mem_cons_of_mem c hx)
  rw [(h1 l h).1, (h1 l h).2]

theorem splitFrag_not_mem (l : List Char) (h : '#' ∉ l) :
    splitFrag l = (l, none) := by
  rw [splitFrag]
  rw [breakAt_none (· = '#') l (fun c hc => by
    simp only [decide_eq_false_iff_not]
    exact fun he => h (he ▸ hc))]

theorem splitQuery_not_mem (l : List Char) (h : '?' ∉ l) :
    splitQuery l = (l, none) := by
  rw [splitQuery]
  rw [breakAt_none (· = '?') l (fun c hc => by
    simp only [decide_eq_false_iff_not]
    exact fun he => h (he ▸ hc))]

theorem removeDotSegments_single (val : List Char) (hsl : '/' ∉ val)
    (h1 : val ≠ ['.']) (h2 : val ≠ ['.', '.']) :
    removeDotSegments ('/' :: val) = '/' :: val := by
  rw [removeDotSegments]
  have hsp : splitChar '/' ('/' :: val) = [] :: [val] := by
    rw [splitChar, splitChar_not_mem '/' val hsl]
    rfl
  rw [hsp]
  show '/' :: joinSep ['/'] (rdsGo [] [val]) = '/' :: val
  rw [rdsGo, if_neg h1, if_neg h2]
  rfl

theorem encodePath_append (a b : List Char) :
    encodePath (a ++ b) = encodePath a ++ encodePath b := by
  rw [encodePath, encodePath, encodePath, List.map_append, List.flatten_append]

theorem encodePath_safe (l : List Char) (h : ∀ c ∈ l, pathSafe c = true) :
    encodePath l = l := by
  induction l with
  | nil => rfl
  | cons c cs ih =>
    rw [encodePath, List.map_cons, List.flatten_cons]
    rw [show (List.map pctEncodeChar cs).flatten = encodePath cs from rfl]
    rw [ih (fun x hx => h x (List.mem_cons_of_mem c hx))]
    rw [pctEncodeChar, if_pos (h c (by simp))]
    rfl

theorem srcsetSafe_pathSafe (c : Char) (h : srcsetSafe c = true) :
    pathSafe c = true := by
  rw [srcsetSafe] at h
  rw [pathSafe]
  simp only [decide_eq_true_eq, Bool.or_eq_true] at h ⊢
  tauto

theorem srcsetSafe_excl (c : Char) (h : srcsetSafe c = true) :
    c ≠ ':' ∧ c ≠ '#' ∧ c ≠ '?' ∧ c ≠ '/' := by
  refine ⟨?_, ?_, ?_, ?_⟩ <;> (rintro rfl; exact absurd h (by decide))

/-- C5 counterexample: a two-candidate srcset is passed to URL
resolution as one single URL; the second candidate is not resolved
against the base, it is percent-encoded into the first resolution
instead of becoming an absolute URL of its own. -/
theorem c5_counterexample :
    makeUrlAbsolute (("a.png 1x, b.png 2x").data) c5Base =
      some (("http://example.com/a.png%201x,%20b.png%202x").data) ∧
    some (("http://example.com/a.png%201x,%20b.png%202x").data) ≠
      some (("http://example.com/a.png 1x, http://example.com/b.png 2x").data) :=
  ⟨by decide, by decide⟩

/-- C5 amended: the URL processor hands the whole srcset attribute to
makeUrlAbsolute as a single URL: for every two candidates with safe
file-name characters and density descriptors, the rewritten value is one
absolute URL in which the separator spaces are percent-encoded and the
second candidate is embedded verbatim rather than resolved
independently. -/
theorem c5_srcset_single_url (p q : List Char) (hp : p ≠ []) (_hq : q ≠ [])
    (hps : ∀ c ∈ p, srcsetSafe c = true) (hqs : ∀ c ∈ q, srcsetSafe c = true) :
    makeUrlAbsolute (p ++ (" 1x, ").data ++ q ++ (" 2x").data) c5Base =
      some (("http://example.com/").data ++ p ++ ("%201x,%20").data ++
            q ++ ("%202x").data) := by
  set val := p ++ (" 1x, ").data ++ q ++ (" 2x").data with hval
  have hall : ∀ c ∈ val, c ≠ ':' ∧ c ≠ '#' ∧ c ≠ '?' ∧ c ≠ '/' := by
    intro c hc
    rw [hval] at hc
    rcases List.mem_append.mp hc with h3 | h4
    · rcases List.mem_append.mp h3 with h5 | h6
      · rcases List.mem_append.mp h5 with h7 | h8
        · exact srcsetSafe_excl c (hps c h7)
        · fin_cases h8 <;> decide
      · exact srcsetSafe_excl c (hqs c h6)
    · fin_cases h4 <;> decide
  have hvne : val ≠ [] := by
    rw [hval]
    cases p with
    | nil => exact absurd rfl hp
    | cons a as => simp
  obtain ⟨p0, ps, hpc⟩ : ∃ a as, p = a :: as := by
    cases p with
    | nil => exact absurd rfl hp
    | cons a as => exact ⟨a, as, rfl⟩
  have hvcons : val = p0 :: (ps ++ (" 1x, ").data ++ q ++ (" 2x").data) := by
    rw [hval, hpc]
    simp only [List.cons_append]
  have hp0x := srcsetSafe_excl p0 (hps p0 (by rw [hpc]; simp))
  have hcolon : ':' ∉ val := fun hm => (hall ':' hm).1 rfl
  have hhash : '#' ∉ val := fun hm => (hall '#' hm).2.1 rfl
  have hquest : '?' ∉ val := fun hm => (hall '?' hm).2.2.1 rfl
  have hslash : '/' ∉ val := fun hm => (hall '/' hm).2.2.2 rfl
  have hlen : 3 ≤ val.length := by
    rw [hval, List.length_append]
    have h2x : ((" 2x").data).length = 3 := by decide
    omega
  have hne1 : val ≠ ['.'] := by
    intro hcon
    rw [hcon] at hlen
    simp at hlen
  have hne2 : val ≠ ['.', '.'] := by
    intro hcon
    rw [hcon] at hlen
    simp at hlen
  have hres : resolve val c5Base =
      some { c5Base with path := '/' :: val, query := none, frag := none } := by
    unfold resolve
    rw [parseScheme_none val hcolon]
    show resolveRel val c5Base = _
    unfold resolveRel
    rw [if_neg (show ¬ c5Base.host = none by decide)]
    rw [if_neg hvne]
    rw [if_neg (show ¬ val.head? = some '#' from by
      rw [hvcons]
      simp only [List.head?_cons, Option.some.injEq]
      exact hp0x.2.1)]
    rw [if_neg (show ¬ val.head? = some '?' from by
      rw [hvcons]
      simp only [List.head?_cons, Option.some.injEq]
      exact hp0x.2.2.1)]
    rw [if_neg (show ¬ val.take 2 = ['/', '/'] from by
      rw [hvcons]
      intro hcon
      rw [List.take_succ_cons] at hcon
      injection hcon with hx _
      exact hp0x.2.2.2 hx)]
    rw [if_neg (show ¬ val.head? = some '/' from by
      rw [hvcons]
      simp only [List.head?_cons, Option.some.injEq]
      exact hp0x.2.2.2)]
    rw [splitFrag_not_mem val hhash]
    show (match splitQuery val with
          | (pathPart, qq) => some { c5Base with
              path := removeDotSegments (dirOfPath c5Base.path ++ pathPart),
              query := qq, frag := none }) = _
    rw [splitQuery_not_mem val hquest]
    show some { c5Base with
        path := removeDotSegments (dirOfPath c5Base.path ++ val),
        query := none, frag := none } = _
    rw [show dirOfPath c5Base.path = ['/'] from by decide]
    rw [show ((['/'] : List Char) ++ val) = '/' :: val from rfl]
    rw [removeDotSegments_single val hslash hne1 hne2]
  have hfix : resolve val (dirNormalize c5Base) =
      some { c5Base with path := '/' :: val, query := none, frag := none } := by
    rw [show dirNormalize c5Base = c5Base from by decide]
    exact hres
  rw [makeUrlAbsolute_http val c5Base _ hvne hfix (Or.inl rfl)]
  have hhref : href { c5Base with
      path := '/' :: val, query := none, frag := none } =
      ("http").data ++ [':'] ++
        ('/' :: '/' :: (("example.com").data ++ encodePath ('/' :: val))) ++
        ([] : List Char) ++ ([] : List Char) := rfl
  rw [hhref]
  have hep : encodePath ('/' :: val) =
      '/' :: (p ++ ("%201x,%20").data ++ q ++ ("%202x").data) := by
    rw [hval]
    rw [show ('/' :: (p ++ (" 1x, ").data ++ q ++ (" 2x").data)) =
      ['/'] ++ (p ++ (" 1x, ").data ++ q ++ (" 2x").data) from rfl]
    rw [encodePath_append, encodePath_append, encodePath_append,
        encodePath_append]
    rw [encodePath_safe p (fun c hc => srcsetSafe_pathSafe c (hps c hc)),
        encodePath_safe q (fun c hc => srcsetSafe_pathSafe c (hqs c hc))]
    rw [show encodePath ['/'] = ['/'] from by decide,
        show encodePath ((" 1x, ").data) = ("%201x,%20").data from by decide,
        show encodePath ((" 2x").data) = ("%202x").data from by decide]
    rfl
  rw [hep]
  simp only [List.append_nil, List.cons_append, List.append_assoc]
  rfl

/-- C5 witness: the amended single-URL behavior at concrete candidate
names. -/
theorem c5_witness :
    makeUrlAbsolute (("img-a.png").data ++ (" 1x, ").data ++
        ("img-b.png").data ++ (" 2x").data) c5Base =
      some (("http://example.com/").data ++ ("img-a.png").data ++
            ("%201x,%20").data ++ ("img-b.png").data ++ ("%202x").data) := by
  have h := c5_srcset_single_url (("img-a.png").data) (("img-b.png").data)
    (by decide) (by decide) (by decide) (by decide)
  exact h

theorem head?_append_ne (x z : List Char) (hx : x ≠ []) :
    (x ++ z).head? = x.head? := by
  cases x with
  | nil => exact absurd rfl hx
  | cons a b => rfl

theorem getLast?_append_ne (a b : List Char) (hb : b ≠ []) :
    (a ++ b).getLast? = b.getLast? := by
  induction a with
  | nil => rfl
  | cons c a2 ih =>
    rw [List.cons_append]
    cases hab : a2 ++ b with
    | nil => exact absurd (List.append_eq_nil.mp hab).2 hb
    | cons d m =>
      rw [List.getLast?_cons_cons, ← hab]
      exact ih

theorem getLast?_cons_ne (c : Char) (l : List Char) (h : l ≠ []) :
    (c :: l).getLast? = l.getLast? := by
  have h2 := getLast?_append_ne [c] l h
  simpa using h2

theorem joinSep_cons_ne (sep : List Char) (x : List Char)
    (xs : List (List Char)) (h : xs ≠ []) :
    joinSep sep (x :: xs) = x ++ sep ++ joinSep sep xs := by
  cases xs with
  | nil => exact absurd rfl h
  | cons y t => rfl

theorem joinSep_ne_nil (sep : List Char) (x : List Char)
    (xs : List (List Char)) (hx : x ≠ []) :
    joinSep sep (x :: xs) ≠ [] := by
  cases xs with
  | nil => exact hx
  | cons y t =>
    show x ++ sep ++ joinSep sep (y :: t) ≠ []
    intro hC
    rw [List.append_assoc] at hC
    exact hx (List.append_eq_nil.mp hC).1

theorem joinSep_append (sep : List Char) (as bs : List (List Char))
    (ha : as ≠ []) (hb : bs ≠ []) :
    joinSep sep (as ++ bs) = joinSep sep as ++ sep ++ joinSep sep bs := by
  induction as with
  | nil => exact absurd rfl ha
  | cons x rest ih =>
    cases rest with
    | nil =>
      rw [List.cons_append, List.nil_append]
      exact joinSep_cons_ne sep x bs hb
    | cons y t =>
      have h1 : (x :: y :: t) ++ bs = x :: ((y :: t) ++ bs) := rfl
      rw [h1, joinSep_cons_ne sep x ((y :: t) ++ bs) (by simp),
          ih (by simp),
          joinSep_cons_ne sep x (y :: t) (by simp)]
      simp [List.append_assoc]

theorem joinSep_head (sep : List Char) (x : List Char)
    (xs : List (List Char)) (hx : x ≠ []) :
    (joinSep sep (x :: xs)).head? = x.head? := by
  cases xs with
  | nil => rfl
  | cons y t =>
    show (x ++ sep ++ joinSep sep (y :: t)).head? = x.head?
    rw [List.append_assoc]
    exact head?_append_ne x _ hx

theorem joinSep_getLast (sep : List Char) (xs : List (List Char))
    (h : ∀ l ∈ xs, l ≠ []) (hne : xs ≠ []) :
    ∃ m ∈ xs, (joinSep sep xs).getLast? = m.getLast? := by
  induction xs with
  | nil => exact absurd rfl hne
  | cons x rest ih =>
    cases rest with
    | nil => exact ⟨x, by simp, rfl⟩
    | cons y t =>
      obtain ⟨m, hm, hlast⟩ := ih (fun l hl => h l (by simp [hl])) (by simp)
      refine ⟨m, by simp [hm], ?_⟩
      show (x ++ sep ++ joinSep sep (y :: t)).getLast? = m.getLast?
      rw [List.append_assoc]
      rw [getLast?_append_ne x _ (fun hC =>
        joinSep_ne_nil sep y t (h y (by simp)) (List.append_eq_nil.mp hC).2)]
      rw [getLast?_append_ne sep _ (joinSep_ne_nil sep y t (h y (by simp)))]
      exact hlast

theorem joinSep_cons_append (sep u v : List Char)
    (ls : List (List Char)) :
    joinSep sep ((u ++ v) :: ls) = u ++ joinSep sep (v :: ls) := by
  cases ls with
  | nil => rfl
  | cons y t =>
    show (u ++ v) ++ sep ++ joinSep sep (y :: t) =
      u ++ (v ++ sep ++ joinSep sep (y :: t))
    simp [List.append_assoc]

theorem joinSep_inner_cons (a b : Char) (y : List Char) (ls : List (List Char)) :
    joinSep [a] ((b :: y) :: ls) = b :: joinSep [a] (y :: ls) := by
  cases ls <;> rfl

theorem joinSep_two (a b : Char) (x : List Char) (ls : List (List Char)) :
    joinSep [a, b] (x :: ls) =
      joinSep [a] (x :: ls.map (fun l => b :: l)) := by
  induction ls generalizing x with
  | nil => rfl
  | cons y ys ih =>
    rw [joinSep_cons_ne [a, b] x (y :: ys) (by simp), ih y, List.map_cons,
        joinSep_cons_ne [a] x _ (by simp), joinSep_inner_cons]
    simp

theorem splitChar_cons_sep (sep : Char) (b : List Char) :
    splitChar sep (sep :: b) = [] :: splitChar sep b := by
  rw [splitChar]
  cases h : splitChar sep b with
  | nil => exact absurd h (splitChar_ne_nil sep b)
  | cons m t =>
    show (if sep = sep then [] :: m :: t else (sep :: m) :: t) = [] :: m :: t
    rw [if_pos rfl]

theorem splitChar_append_sep (sep : Char) (a b : List Char) (h : sep ∉ a) :
    splitChar sep (a ++ sep :: b) = a :: splitChar sep b := by
  induction a with
  | nil =>
    rw [List.nil_append, splitChar_cons_sep]
  | cons c a2 ih =>
    rw [List.cons_append, splitChar,
        ih (fun hm => h (List.mem_cons_of_mem c hm))]
    show (if c = sep then [] :: a2 :: splitChar sep b
          else (c :: a2) :: splitChar sep b) = (c :: a2) :: splitChar sep b
    rw [if_neg (fun he => h (by simp [he]))]

theorem splitChar_joinSep (sep : Char) (ls : List (List Char))
    (h : ∀ x ∈ ls, sep ∉ x) (hne : ls ≠ []) :
    splitChar sep (joinSep [sep] ls) = ls := by
  induction ls with
  | nil => exact absurd rfl hne
  | cons x rest ih =>
    cases rest with
    | nil => exact splitChar_not_mem sep x (h x (by simp))
    | cons y t =>
      rw [joinSep_cons_ne [sep] x (y :: t) (by simp)]
      rw [List.append_assoc]
      rw [show ([sep] ++ joinSep [sep] (y :: t)) =
        sep :: joinSep [sep] (y :: t) from rfl]
      rw [splitChar_append_sep sep x _ (h x (by simp))]
      rw [ih (fun z hz => h z (by simp [hz])) (by simp)]

theorem joinSep_singleton (sep x : List Char) : joinSep sep [x] = x := rfl

theorem not_ws_ne_nl (c : Char) (h : wsChar c = false) : c ≠ '\n' := by
  intro hC
  rw [hC] at h
  exact absurd h (by decide)

theorem natChars_not_ws (n : Nat) : ∀ c ∈ natChars n, wsChar c = false := by
  induction n using Nat.strong_induction_on with
  | _ n ih =>
    rw [natChars]
    split
    · next h =>
      intro c hc
      simp only [List.mem_singleton] at hc
      subst hc
      interval_cases n <;> decide
    · next h =>
      intro c hc
      rw [List.mem_append] at hc
      cases hc with
      | inl h1 => exact ih (n / 10) (by omega) c h1
      | inr h2 =>
        simp only [List.mem_singleton] at h2
        subst h2
        obtain ⟨m, hm, hem⟩ : ∃ m, m < 10 ∧ n % 10 = m :=
          ⟨n % 10, Nat.mod_lt _ (by norm_num), rfl⟩
        rw [hem]
        interval_cases m <;> decide

theorem natChars_ne_nil (n : Nat) : natChars n ≠ [] := by
  rw [natChars]
  split <;> simp

theorem intChars_not_ws (i : Int) : ∀ c ∈ intChars i, wsChar c = false := by
  intro c hc
  rw [intChars, List.mem_append] at hc
  cases hc with
  | inl h1 =>
    split at h1
    · simp only [List.mem_singleton] at h1
      subst h1
      decide
    · simp at h1
  | inr h2 => exact natChars_not_ws i.natAbs c h2

theorem intChars_ne_nil (i : Int) : intChars i ≠ [] := by
  rw [intChars]
  intro h
  exact natChars_ne_nil i.natAbs (List.append_eq_nil.mp h).2

theorem intChars_head (i : Int) :
    ∃ c cs, intChars i = c :: cs ∧ wsChar c = false := by
  cases hi : intChars i with
  | nil => exact absurd hi (intChars_ne_nil i)
  | cons c cs =>
    exact ⟨c, cs, rfl, intChars_not_ws i c (by rw [hi]; exact List.mem_cons_self c cs)⟩

theorem markerFor_ne_nil (bullet : Char) (pk : LKind) (k : Nat) :
    markerFor bullet pk k ≠ [] := by
  cases pk with
  | ul => simp [markerFor]
  | ol s =>
    cases s with
    | some v =>
      show intChars (v + (k : Int)) ++ ['.', ' '] ≠ []
      intro h
      exact List.cons_ne_nil _ _ (List.append_eq_nil.mp h).2
    | none =>
      show intChars ((k : Int) + 1) ++ ['.', ' '] ≠ []
      intro h
      exact List.cons_ne_nil _ _ (List.append_eq_nil.mp h).2

theorem markerFor_head (bullet : Char) (pk : LKind) (k : Nat)
    (hb : wsChar bullet = false) :
    ∃ c, (markerFor bullet pk k).head? = some c ∧ wsChar c = false := by
  cases pk with
  | ul => exact ⟨bullet, rfl, hb⟩
  | ol s =>
    cases s with
    | some v =>
      obtain ⟨c, cs, hic, hcw⟩ := intChars_head (v + (k : Int))
      refine ⟨c, ?_, hcw⟩
      show (intChars (v + (k : Int)) ++ ['.', ' ']).head? = some c
      rw [hic]
      rfl
    | none =>
      obtain ⟨c, cs, hic, hcw⟩ := intChars_head ((k : Int) + 1)
      refine ⟨c, ?_, hcw⟩
      show (intChars ((k : Int) + 1) ++ ['.', ' ']).head? = some c
      rw [hic]
      rfl

theorem markerFor_no_nl (bullet : Char) (pk : LKind) (k : Nat)
    (hb : wsChar bullet = false) :
    ∀ c ∈ markerFor bullet pk k, c ≠ '\n' := by
  intro c hc
  cases pk with
  | ul =>
    have hc2 : c ∈ [bullet, ' '] := hc
    rcases List.mem_cons.mp hc2 with he | hm
    · rw [he]; exact not_ws_ne_nl bullet hb
    · simp only [List.mem_singleton] at hm
      subst hm; decide
  | ol s =>
    cases s with
    | some v =>
      have hc2 : c ∈ intChars (v + (k : Int)) ++ ['.', ' '] := hc
      rcases List.mem_append.mp hc2 with h1 | h2
      · exact not_ws_ne_nl c (intChars_not_ws _ c h1)
      · rcases List.mem_cons.mp h2 with he | hm
        · subst he; decide
        · simp only [List.mem_singleton] at hm
          subst hm; decide
    | none =>
      have hc2 : c ∈ intChars ((k : Int) + 1) ++ ['.', ' '] := hc
      rcases List.mem_append.mp hc2 with h1 | h2
      · exact not_ws_ne_nl c (intChars_not_ws _ c h1)
      · rcases List.mem_cons.mp h2 with he | hm
        · subst he; decide
        · simp only [List.mem_singleton] at hm
          subst hm; decide

theorem lineOK_parts (l : List Char) (h : lineOK l = true) :
    l ≠ [] ∧ (∀ c ∈ l, c ≠ '\n') ∧
    (∃ c, l.getLast? = some c ∧ wsChar c = false) := by
  rw [lineOK, Bool.and_eq_true, Bool.and_eq_true] at h
  obtain ⟨⟨h1, h2⟩, h3⟩ := h
  refine ⟨?_, ?_, ?_⟩
  · intro hC; subst hC; simp at h1
  · intro c hc
    have h4 := List.all_eq_true.mp h2 c hc
    simpa using h4
  · cases hl : l.getLast? with
    | none => rw [hl] at h3; simp [Option.elim] at h3
    | some c =>
      rw [hl] at h3
      exact ⟨c, rfl, by simpa using h3⟩

theorem lineOK_intro (l : List Char) (h1 : l ≠ []) (h2 : ∀ c ∈ l, c ≠ '\n')
    (c : Char) (h3 : l.getLast? = some c) (h4 : wsChar c = false) :
    lineOK l = true := by
  rw [lineOK, Bool.and_eq_true, Bool.and_eq_true]
  refine ⟨⟨?_, ?_⟩, ?_⟩
  · cases l with
    | nil => exact absurd rfl h1
    | cons a m => simp
  · rw [List.all_eq_true]
    intro d hd
    simpa using h2 d hd
  · rw [h3]
    simpa using h4

theorem wfText_parts (t : List Char) (h : wfText t = true) :
    (∃ c, t.head? = some c ∧ wsChar c = false) ∧ lineOK t = true := by
  cases t with
  | nil => exact absurd h (by decide)
  | cons c cs =>
    rw [wfText, Bool.and_eq_true, Bool.and_eq_true] at h
    obtain ⟨⟨h1, h2⟩, h3⟩ := h
    refine ⟨⟨c, rfl, by simpa using h1⟩, ?_⟩
    rw [lineOK, Bool.and_eq_true, Bool.and_eq_true]
    exact ⟨⟨by simp, h3⟩, h2⟩

theorem lineOK_tab (l : List Char) (h : lineOK l = true) :
    lineOK ('\t' :: l) = true := by
  obtain ⟨h1, h2, c, h3, h4⟩ := lineOK_parts l h
  refine lineOK_intro _ (by simp) ?_ c ?_ h4
  · intro d hd
    rcases List.mem_cons.mp hd with he | hm
    · subst he; decide
    · exact h2 d hm
  · rw [getLast?_cons_ne _ _ h1]
    exact h3

theorem lineOK_marker_append (bullet : Char) (pk : LKind) (k : Nat)
    (t : List Char) (hb : wsChar bullet = false) (ht : wfText t = true) :
    lineOK (markerFor bullet pk k ++ t) = true := by
  obtain ⟨_, hOK⟩ := wfText_parts t ht
  obtain ⟨h1, h2, c, h3, h4⟩ := lineOK_parts t hOK
  refine lineOK_intro _ ?_ ?_ c ?_ h4
  · intro hC
    exact h1 (List.append_eq_nil.mp hC).2
  · intro d hd
    rcases List.mem_append.mp hd with hm | hm
    · exact markerFor_no_nl bullet pk k hb d hm
    · exact h2 d hm
  · rw [getLast?_append_ne _ _ h1]
    exact h3

theorem renderItems_cons (bullet : Char) (pk : LKind) (k : Nat) (t : List Char)
    (sk : LKind) (subs rest : List Li) :
    renderItems bullet pk k (Li.mk t sk subs :: rest) =
      (markerFor bullet pk k ++ t) ::
      ((renderItems bullet sk 0 subs).map (fun l => '\t' :: l) ++
       renderItems bullet pk (k + 1) rest) := by
  rw [renderItems]

theorem renderItems_nil (bullet : Char) (pk : LKind) (k : Nat) :
    renderItems bullet pk k [] = [] := by
  rw [renderItems]

theorem wfLT_parts (t : List Char) (sk : LKind) (subs : List Li)
    (h : wfLT (Li.mk t sk subs) = true) :
    wfText t = true ∧ wfLTs subs = true := by
  rw [wfLT, Bool.and_eq_true] at h
  exact h

theorem wfLTs_parts (i : Li) (rest : List Li) (h : wfLTs (i :: rest) = true) :
    wfLT i = true ∧ wfLTs rest = true := by
  rw [wfLTs, Bool.and_eq_true] at h
  exact h

theorem sizeOf_li_mk (t : List Char) (sk : LKind) (subs : List Li) :
    sizeOf subs < sizeOf (Li.mk t sk subs) := by
  simp only [Li.mk.sizeOf_spec]
  omega

theorem sizeOf_li_cons (i : Li) (rest : List Li) :
    sizeOf i < sizeOf (i :: rest) ∧ sizeOf rest < sizeOf (i :: rest) := by
  simp only [List.cons.sizeOf_spec]
  omega

theorem renderItems_lineOK (bullet : Char) (hb : wsChar bullet = false) :
    ∀ (n : Nat) (pk : LKind) (k : Nat) (items : List Li), sizeOf items < n →
      wfLTs items = true → ∀ l ∈ renderItems bullet pk k items, lineOK l = true := by
  intro n
  induction n with
  | zero =>
    intro pk k items h
    exact absurd h (Nat.not_lt_zero _)
  | succ n ih =>
    intro pk k items hsz hwf l hl
    cases items with
    | nil =>
      rw [renderItems_nil] at hl
      exact absurd hl (List.not_mem_nil l)
    | cons i rest =>
      obtain ⟨t, sk, subs⟩ := i
      rw [renderItems_cons] at hl
      obtain ⟨hwi, hwrest⟩ := wfLTs_parts _ rest hwf
      obtain ⟨hwt, hwsubs⟩ := wfLT_parts t sk subs hwi
      have hszi := sizeOf_li_cons (Li.mk t sk subs) rest
      have hszsub := sizeOf_li_mk t sk subs
      rcases List.mem_cons.mp hl with he | hm
      · subst he
        exact lineOK_marker_append bullet pk k t hb hwt
      · rcases List.mem_append.mp hm with h1 | h2
        · obtain ⟨l2, hl2, hl2e⟩ := List.mem_map.mp h1
          subst hl2e
          exact lineOK_tab l2 (ih sk 0 subs (by omega) hwsubs l2 hl2)
        · exact ih pk (k + 1) rest (by omega) hwrest l h2

theorem dropWhile_eq_self_c (p : Char → Bool) (l : List Char) (c : Char)
    (hh : l.head? = some c) (hc : p c = false) : l.dropWhile p = l := by
  cases l with
  | nil => rfl
  | cons a m =>
    have ha : a = c := by simpa using hh
    rw [ha, List.dropWhile_cons, if_neg (by simp [hc])]

theorem jsTrim_eq_self (l : List Char) (c d : Char)
    (hh : l.head? = some c) (hcw : wsChar c = false)
    (hl : l.getLast? = some d) (hdw : wsChar d = false) : jsTrim l = l := by
  rw [jsTrim, dropWhile_eq_self_c wsChar l c hh hcw,
      dropWhile_eq_self_c wsChar l.reverse d
        (by rw [List.head?_reverse]; exact hl) hdw,
      List.reverse_reverse]

theorem rstripNL_eq_self (x : List Char) (c : Char)
    (hx : x.getLast? = some c) (hc : c ≠ '\n') : rstripNL x = x := by
  rw [rstripNL, dropWhile_eq_self_c _ x.reverse c
        (by rw [List.head?_reverse]; exact hx) (by simp [hc]),
      List.reverse_reverse]

theorem rstripNL_append_nl (x : List Char) (c : Char)
    (hx : x.getLast? = some c) (hc : c ≠ '\n') :
    rstripNL (x ++ ['\n']) = x := by
  rw [rstripNL, List.reverse_append]
  show (('\n' :: x.reverse).dropWhile (· = '\n')).reverse = x
  rw [List.dropWhile_cons, if_pos (by simp),
      dropWhile_eq_self_c _ x.reverse c
        (by rw [List.head?_reverse]; exact hx) (by simp [hc]),
      List.reverse_reverse]

theorem joined_last_not_ws (lines : List (List Char))
    (hOK : ∀ l ∈ lines, lineOK l = true) (hne : lines ≠ []) :
    ∃ d, (joinSep ['\n'] lines).getLast? = some d ∧ wsChar d = false := by
  obtain ⟨m, hm, hlast⟩ := joinSep_getLast ['\n'] lines
    (fun l hl => (lineOK_parts l (hOK l hl)).1) hne
  obtain ⟨-, -, d, hd, hdw⟩ := lineOK_parts m (hOK m hm)
  exact ⟨d, by rw [hlast, hd], hdw⟩

theorem renderItems_cons_ne_nil (bullet : Char) (pk : LKind) (k : Nat)
    (i : Li) (rest : List Li) :
    renderItems bullet pk k (i :: rest) ≠ [] := by
  obtain ⟨t, sk, subs⟩ := i
  rw [renderItems_cons]
  exact List.cons_ne_nil _ _

theorem liOut_marker_form (bullet : Char) (pk : LKind) (r : List Bool) (k : Nat)
    (t : List Char) (sk : LKind) (subs : List Li) (hasNext : Bool)
    (hr : countLeadingLists r = 0) :
    liOut bullet pk r k (Li.mk t sk subs) hasNext =
      markerFor bullet pk k ++ jsTrim (liJoined bullet r t sk subs) ++
      (if hasNext ∧ (liJoined bullet r t sk subs).getLast? ≠ some '\n'
       then ['\n'] else []) := by
  cases pk with
  | ul =>
    rw [liOut.eq_1, hr]
    simp only [Nat.add_zero, Nat.add_sub_cancel, List.replicate_zero,
               List.nil_append, liJoined, liContent]
    rfl
  | ol s =>
    cases s with
    | some v =>
      rw [liOut.eq_2, hr]
      have harith : v + ((k : Int) + 1) - 1 = v + (k : Int) := by ring
      simp only [harith, Nat.add_zero, Nat.add_sub_cancel, List.replicate_zero,
                 List.nil_append, liJoined, liContent]
      rfl
    | none =>
      rw [liOut.eq_3, hr]
      simp only [Nat.add_zero, Nat.add_sub_cancel, List.replicate_zero,
                 List.nil_append, liJoined, liContent]
      rfl

theorem liOut_itemsOut_render (bullet : Char) (hb : wsChar bullet = false) :
    ∀ n : Nat,
      (∀ (pk : LKind) (r : List Bool) (k : Nat) (t : List Char) (sk : LKind)
         (subs : List Li) (hasNext : Bool),
        sizeOf (Li.mk t sk subs) < n → countLeadingLists r = 0 →
        wfLT (Li.mk t sk subs) = true →
        liOut bullet pk r k (Li.mk t sk subs) hasNext =
          joinSep ['\n'] (renderItems bullet pk k [Li.mk t sk subs]) ++
          (if hasNext then ['\n'] else [])) ∧
      (∀ (pk : LKind) (r : List Bool) (k : Nat) (items : List Li),
        sizeOf items < n → countLeadingLists r = 0 → wfLTs items = true →
        itemsOut bullet pk r k items =
          joinSep ['\n'] (renderItems bullet pk k items)) := by
  intro n
  induction n with
  | zero =>
    constructor
    · intro pk r k t sk subs hasNext h
      exact absurd h (Nat.not_lt_zero _)
    · intro pk r k items h
      exact absurd h (Nat.not_lt_zero _)
  | succ n ih =>
    obtain ⟨ihL, ihI⟩ := ih
    constructor
    · intro pk r k t sk subs hasNext hsz hr hwf
      obtain ⟨hwt, hwsubs⟩ := wfLT_parts t sk subs hwf
      obtain ⟨⟨ch, hch, hchw⟩, htOK⟩ := wfText_parts t hwt
      obtain ⟨htne, htnl, dt, hdt, hdtw⟩ := lineOK_parts t htOK
      have htnotmem : '\n' ∉ t := fun hmem => htnl '\n' hmem rfl
      rw [liOut_marker_form bullet pk r k t sk subs hasNext hr]
      cases subs with
      | nil =>
        have hC : liContent bullet r t sk [] = t := List.append_nil t
        have hrs : rstripNL t = t := rstripNL_eq_self t dt hdt (not_ws_ne_nl dt hdtw)
        have hsp : splitNL t = [t] := splitChar_not_mem '\n' t htnotmem
        have hfil : ([t]).filter (fun l => l.length > 0) = [t] := by
          rw [List.filter_eq_self]
          intro a ha
          simp only [List.mem_singleton] at ha
          subst ha
          simp [List.length_pos, htne]
        have hJ : liJoined bullet r t sk [] = t := by
          rw [liJoined, hC, hrs]
          show joinSep ['\n', '\t'] ((splitNL t).filter (fun l => l.length > 0)) = t
          rw [hsp, hfil]
          rfl
        have hjst : jsTrim t = t := jsTrim_eq_self t ch dt hch hchw hdt hdtw
        have hsfx : (if hasNext ∧ (liJoined bullet r t sk []).getLast? ≠ some '\n'
            then ['\n'] else ([] : List Char)) = (if hasNext then ['\n'] else []) := by
          rw [hJ, hdt]
          cases hasNext with
          | false => simp
          | true => simp [not_ws_ne_nl dt hdtw]
        rw [hsfx, hJ, hjst, renderItems_cons bullet pk k t sk [] [],
            renderItems_nil bullet sk 0, renderItems_nil bullet pk (k + 1)]
        simp [joinSep_singleton, List.append_assoc]
      | cons s0 ss =>
        have hszsub : sizeOf (s0 :: ss) < n := by
          have h1 := sizeOf_li_mk t sk (s0 :: ss)
          omega
        have hrr : countLeadingLists (false :: true :: r) = 0 := rfl
        have hS := ihI sk (false :: true :: r) 0 (s0 :: ss) hszsub hrr hwsubs
        have hLOK : ∀ l ∈ renderItems bullet sk 0 (s0 :: ss), lineOK l = true :=
          renderItems_lineOK bullet hb (sizeOf (s0 :: ss) + 1) sk 0 (s0 :: ss)
            (Nat.lt_succ_self _) hwsubs
        have hLne : renderItems bullet sk 0 (s0 :: ss) ≠ [] :=
          renderItems_cons_ne_nil bullet sk 0 s0 ss
        obtain ⟨t0, sk0, subs0⟩ := s0
        have hLcons := renderItems_cons bullet sk 0 t0 sk0 subs0 ss
        obtain ⟨c0, hc0, hc0w⟩ := markerFor_head bullet sk 0 hb
        have hheadL :
            (joinSep ['\n'] (renderItems bullet sk 0 (Li.mk t0 sk0 subs0 :: ss))).head? =
              some c0 := by
          rw [hLcons, joinSep_head ['\n'] _ _
            (fun hC => markerFor_ne_nil bullet sk 0 (List.append_eq_nil.mp hC).1),
            head?_append_ne _ _ (markerFor_ne_nil bullet sk 0), hc0]
        obtain ⟨dS, hdS, hdSw⟩ :=
          joined_last_not_ws (renderItems bullet sk 0 (Li.mk t0 sk0 subs0 :: ss)) hLOK hLne
        have hJne : joinSep ['\n'] (renderItems bullet sk 0 (Li.mk t0 sk0 subs0 :: ss)) ≠ [] := by
          rw [hLcons]
          exact joinSep_ne_nil _ _ _
            (fun hC => markerFor_ne_nil bullet sk 0 (List.append_eq_nil.mp hC).1)
        have hjsS : jsTrim (joinSep ['\n'] (renderItems bullet sk 0 (Li.mk t0 sk0 subs0 :: ss))) =
            joinSep ['\n'] (renderItems bullet sk 0 (Li.mk t0 sk0 subs0 :: ss)) :=
          jsTrim_eq_self _ c0 dS hheadL hc0w hdS hdSw
        have hC : liContent bullet r t sk (Li.mk t0 sk0 subs0 :: ss) =
            (t ++ '\n' :: joinSep ['\n'] (renderItems bullet sk 0 (Li.mk t0 sk0 subs0 :: ss))) ++ ['\n'] := by
          show t ++ (('\n' :: jsTrim (itemsOut bullet sk (false :: true :: r) 0 (Li.mk t0 sk0 subs0 :: ss))) ++ ['\n']) = _
          rw [hS, hjsS, ← List.append_assoc]
        have hlastTS :
            (t ++ '\n' :: joinSep ['\n'] (renderItems bullet sk 0 (Li.mk t0 sk0 subs0 :: ss))).getLast? =
              some dS := by
          rw [getLast?_append_ne _ _ (List.cons_ne_nil _ _),
              getLast?_cons_ne _ _ hJne, hdS]
        have hrs : rstripNL (liContent bullet r t sk (Li.mk t0 sk0 subs0 :: ss)) =
            t ++ '\n' :: joinSep ['\n'] (renderItems bullet sk 0 (Li.mk t0 sk0 subs0 :: ss)) := by
          rw [hC]
          exact rstripNL_append_nl _ dS hlastTS (not_ws_ne_nl dS hdSw)
        have hspJ : splitNL (joinSep ['\n'] (renderItems bullet sk 0 (Li.mk t0 sk0 subs0 :: ss))) =
            renderItems bullet sk 0 (Li.mk t0 sk0 subs0 :: ss) :=
          splitChar_joinSep '\n' _
            (fun x hx hmem => (lineOK_parts x (hLOK x hx)).2.1 '\n' hmem rfl) hLne
        have hsp : splitNL (t ++ '\n' :: joinSep ['\n'] (renderItems bullet sk 0 (Li.mk t0 sk0 subs0 :: ss))) =
            t :: renderItems bullet sk 0 (Li.mk t0 sk0 subs0 :: ss) := by
          rw [splitNL] at hspJ ⊢
          rw [splitChar_append_sep '\n' t _ htnotmem, hspJ]
        have hfil : (t :: renderItems bullet sk 0 (Li.mk t0 sk0 subs0 :: ss)).filter
            (fun l => l.length > 0) = t :: renderItems bullet sk 0 (Li.mk t0 sk0 subs0 :: ss) := by
          rw [List.filter_eq_self]
          intro a ha
          rcases List.mem_cons.mp ha with he | hm
          · subst he
            simp [List.length_pos, htne]
          · have hane := (lineOK_parts a (hLOK a hm)).1
            simp [List.length_pos, hane]
        have hJ : liJoined bullet r t sk (Li.mk t0 sk0 subs0 :: ss) =
            joinSep ['\n'] (t :: (renderItems bullet sk 0 (Li.mk t0 sk0 subs0 :: ss)).map
              (fun l => '\t' :: l)) := by
          rw [liJoined, hrs, hsp, hfil, joinSep_two]
        have hmapOK : ∀ l ∈ (t :: (renderItems bullet sk 0 (Li.mk t0 sk0 subs0 :: ss)).map
            (fun l => '\t' :: l)), lineOK l = true := by
          intro l hl
          rcases List.mem_cons.mp hl with he | hm
          · subst he
            exact htOK
          · obtain ⟨l2, hl2, hl2e⟩ := List.mem_map.mp hm
            subst hl2e
            exact lineOK_tab l2 (hLOK l2 hl2)
        obtain ⟨dJ, hdJ, hdJw⟩ :=
          joined_last_not_ws _ hmapOK (List.cons_ne_nil _ _)
        have hjsJ : jsTrim (joinSep ['\n'] (t :: (renderItems bullet sk 0 (Li.mk t0 sk0 subs0 :: ss)).map
            (fun l => '\t' :: l))) = joinSep ['\n'] (t :: (renderItems bullet sk 0 (Li.mk t0 sk0 subs0 :: ss)).map
            (fun l => '\t' :: l)) := by
          refine jsTrim_eq_self _ ch dJ ?_ hchw hdJ hdJw
          rw [joinSep_head ['\n'] t _ htne]
          exact hch
        have hsfx : (if hasNext ∧ (liJoined bullet r t sk (Li.mk t0 sk0 subs0 :: ss)).getLast? ≠ some '\n'
            then ['\n'] else ([] : List Char)) = (if hasNext then ['\n'] else []) := by
          rw [hJ, hdJ]
          cases hasNext with
          | false => simp
          | true => simp [not_ws_ne_nl dJ hdJw]
        rw [hsfx, hJ, hjsJ,
            renderItems_cons bullet pk k t sk (Li.mk t0 sk0 subs0 :: ss) [],
            renderItems_nil bullet pk (k + 1), List.append_nil]
        rw [← joinSep_cons_append]
    · intro pk r k items hsz hr hwf
      cases items with
      | nil =>
        rw [itemsOut.eq_1, renderItems_nil]
        rfl
      | cons i rest =>
        obtain ⟨t, sk, subs⟩ := i
        obtain ⟨hwi, hwrest⟩ := wfLTs_parts _ rest hwf
        have hszi : sizeOf (Li.mk t sk subs) < n := by
          have h1 := sizeOf_li_cons (Li.mk t sk subs) rest
          have h2 : (1 : Nat) ≤ sizeOf rest := by
            cases rest with
            | nil => simp
            | cons j js => simp only [List.cons.sizeOf_spec]; omega
          simp only [List.cons.sizeOf_spec] at hsz
          omega
        have hszrest : sizeOf rest < n := by
          have h2 : (1 : Nat) ≤ sizeOf (Li.mk t sk subs) := by
            simp only [Li.mk.sizeOf_spec]; omega
          simp only [List.cons.sizeOf_spec] at hsz
          omega
        rw [itemsOut.eq_2]
        cases rest with
        | nil =>
          show liOut bullet pk r k (Li.mk t sk subs) false ++
            itemsOut bullet pk r (k + 1) [] = _
          rw [ihL pk r k t sk subs false hszi hr hwi, itemsOut.eq_1]
          simp
        | cons j js =>
          show liOut bullet pk r k (Li.mk t sk subs) true ++
            itemsOut bullet pk r (k + 1) (j :: js) = _
          rw [ihL pk r k t sk subs true hszi hr hwi,
              ihI pk r (k + 1) (j :: js) hszrest hr hwrest]
          have h1ne : renderItems bullet pk k [Li.mk t sk subs] ≠ [] :=
            renderItems_cons_ne_nil bullet pk k (Li.mk t sk subs) []
          have h2ne : renderItems bullet pk (k + 1) (j :: js) ≠ [] :=
            renderItems_cons_ne_nil bullet pk (k + 1) j js
          rw [show (if true = true then ['\n'] else ([] : List Char)) = ['\n'] from rfl]
          rw [← joinSep_append ['\n'] _ _ h1ne h2ne]
          rw [renderItems_cons bullet pk k t sk subs [],
              renderItems_nil bullet pk (k + 1), List.append_nil,
              renderItems_cons bullet pk k t sk subs (j :: js)]
          simp [List.cons_append, List.append_assoc]

theorem entries_mem_render (bullet : Char) :
    ∀ (n d : Nat) (pk : LKind) (k : Nat) (items : List Li) (pk2 : LKind)
      (k2 : Nat) (t : List Char), sizeOf items < n →
      (pk2, k2, t) ∈ entriesAtDepth d pk k items →
      List.replicate (d - 1) '\t' ++ markerFor bullet pk2 k2 ++ t ∈
        renderItems bullet pk k items := by
  intro n
  induction n with
  | zero =>
    intro d pk k items pk2 k2 t h
    exact absurd h (Nat.not_lt_zero _)
  | succ n ih =>
    intro d pk k items pk2 k2 t hsz hmem
    cases d with
    | zero => simp [entriesAtDepth] at hmem
    | succ d1 =>
      cases items with
      | nil => simp [entriesAtDepth] at hmem
      | cons i rest =>
        obtain ⟨ti, ski, subsi⟩ := i
        have hsub := sizeOf_li_mk ti ski subsi
        have hcons := sizeOf_li_cons (Li.mk ti ski subsi) rest
        have hszrest : sizeOf rest < n := by omega
        have hszsubs : sizeOf subsi < n := by omega
        cases d1 with
        | zero =>
          rw [entriesAtDepth] at hmem
          rcases List.mem_cons.mp hmem with he | hm
          · have h1 : pk2 = pk ∧ k2 = k ∧ t = ti := by
              simpa [Prod.ext_iff] using he
            obtain ⟨hp, hk, ht⟩ := h1
            subst hp; subst hk; subst ht
            rw [renderItems_cons]
            exact List.mem_cons_self _ _
          · have h2 := ih 1 pk (k + 1) rest pk2 k2 t hszrest hm
            rw [renderItems_cons]
            exact List.mem_cons_of_mem _ (List.mem_append_right _ h2)
        | succ d2 =>
          rw [entriesAtDepth] at hmem
          rcases List.mem_append.mp hmem with h1 | h2
          · have h3 := ih (d2 + 1) ski 0 subsi pk2 k2 t hszsubs h1
            rw [renderItems_cons]
            apply List.mem_cons_of_mem
            apply List.mem_append_left
            have hsh : List.replicate (d2 + 2 - 1) '\t' ++ markerFor bullet pk2 k2 ++ t =
                '\t' :: (List.replicate (d2 + 1 - 1) '\t' ++ markerFor bullet pk2 k2 ++ t) := by
              show List.replicate (d2 + 1) '\t' ++ markerFor bullet pk2 k2 ++ t = _
              rw [List.replicate_succ]
              rfl
            rw [hsh]
            exact List.mem_map_of_mem _ h3
          · have h3 := ih (d2 + 2) pk (k + 1) rest pk2 k2 t hszrest h2
            rw [renderItems_cons]
            exact List.mem_cons_of_mem _ (List.mem_append_right _ h3)

/-- C6: for every list item found at list-nesting depth d in a well-formed
item tree (depth one is the top list, whose parent is not a list), the
converted list output contains a line consisting of exactly d minus one tab
characters, then the item marker, then the item text: the indentation before
the marker is exactly d minus one tabs. -/
theorem c6_nested_list_indentation (bullet : Char) (kind : LKind) (r : List Bool)
    (items : List Li) (d : Nat) (pk : LKind) (k : Nat) (t : List Char)
    (hb : wsChar bullet = false) (hr : countLeadingLists r = 0)
    (hwf : wfLTs items = true)
    (hmem : (pk, k, t) ∈ entriesAtDepth d kind 0 items) :
    List.replicate (d - 1) '\t' ++ markerFor bullet pk k ++ t ∈
      splitNL (listOut bullet kind r false items) := by
  cases items with
  | nil =>
    exfalso
    cases d with
    | zero => simp [entriesAtDepth] at hmem
    | succ d1 => simp [entriesAtDepth] at hmem
  | cons i0 rest0 =>
    have hitems := (liOut_itemsOut_render bullet hb (sizeOf (i0 :: rest0) + 1)).2
      kind r 0 (i0 :: rest0) (Nat.lt_succ_self _) hr hwf
    have hLOK := renderItems_lineOK bullet hb (sizeOf (i0 :: rest0) + 1) kind 0
      (i0 :: rest0) (Nat.lt_succ_self _) hwf
    have hLne := renderItems_cons_ne_nil bullet kind 0 i0 rest0
    have hEM := entries_mem_render bullet (sizeOf (i0 :: rest0) + 1) d kind 0
      (i0 :: rest0) pk k t (Nat.lt_succ_self _) hmem
    obtain ⟨t0, sk0, subs0⟩ := i0
    have hLcons := renderItems_cons bullet kind 0 t0 sk0 subs0 rest0
    obtain ⟨c0, hc0, hc0w⟩ := markerFor_head bullet kind 0 hb
    have hheadL :
        (joinSep ['\n'] (renderItems bullet kind 0 (Li.mk t0 sk0 subs0 :: rest0))).head? =
          some c0 := by
      rw [hLcons, joinSep_head ['\n'] _ _
        (fun hC => markerFor_ne_nil bullet kind 0 (List.append_eq_nil.mp hC).1),
        head?_append_ne _ _ (markerFor_ne_nil bullet kind 0), hc0]
    obtain ⟨dS, hdS, hdSw⟩ :=
      joined_last_not_ws (renderItems bullet kind 0 (Li.mk t0 sk0 subs0 :: rest0)) hLOK hLne
    have hjs : jsTrim (joinSep ['\n'] (renderItems bullet kind 0 (Li.mk t0 sk0 subs0 :: rest0))) =
        joinSep ['\n'] (renderItems bullet kind 0 (Li.mk t0 sk0 subs0 :: rest0)) :=
      jsTrim_eq_self _ c0 dS hheadL hc0w hdS hdSw
    have hLO : listOut bullet kind r false (Li.mk t0 sk0 subs0 :: rest0) =
        ('\n' :: joinSep ['\n'] (renderItems bullet kind 0 (Li.mk t0 sk0 subs0 :: rest0))) ++
          ['\n'] := by
      show (if false then [] else ['\n']) ++
        jsTrim (itemsOut bullet kind r 0 (Li.mk t0 sk0 subs0 :: rest0)) ++ ['\n'] = _
      rw [hitems, hjs]
      rfl
    have hJL : joinSep ['\n'] (renderItems bullet kind 0 (Li.mk t0 sk0 subs0 :: rest0)) ++ ['\n'] =
        joinSep ['\n'] (renderItems bullet kind 0 (Li.mk t0 sk0 subs0 :: rest0) ++ [[]]) := by
      rw [joinSep_append ['\n'] _ [[]] hLne (by simp), joinSep_singleton,
          List.append_nil]
    have hsplit : splitNL (listOut bullet kind r false (Li.mk t0 sk0 subs0 :: rest0)) =
        [] :: (renderItems bullet kind 0 (Li.mk t0 sk0 subs0 :: rest0) ++ [[]]) := by
      rw [hLO]
      show splitChar '\n'
        ('\n' :: (joinSep ['\n'] (renderItems bullet kind 0 (Li.mk t0 sk0 subs0 :: rest0)) ++ ['\n'])) = _
      rw [splitChar_cons_sep, hJL,
          splitChar_joinSep '\n' _ ?_ (by simp)]
      intro x hx
      rcases List.mem_append.mp hx with hm | hm
      · exact fun hmem2 => (lineOK_parts x (hLOK x hm)).2.1 '\n' hmem2 rfl
      · simp only [List.mem_singleton] at hm
        subst hm
        exact List.not_mem_nil '\n'
    rw [hsplit]
    exact List.mem_cons_of_mem _ (List.mem_append_left _ hEM)

/-- C6 witness: in a two-level unordered list, the nested item line carries
exactly one leading tab before its marker. -/
theorem c6_witness :
    List.replicate 1 '\t' ++ markerFor '-' LKind.ul 0 ++ ("Child").data ∈
      splitNL (listOut '-' LKind.ul [] false
        [Li.mk (("Parent").data) LKind.ul [Li.mk (("Child").data) LKind.ul []]]) := by
  have h := c6_nested_list_indentation '-' LKind.ul []
      [Li.mk (("Parent").data) LKind.ul [Li.mk (("Child").data) LKind.ul []]]
      2 LKind.ul 0 (("Child").data) (by decide) (by decide)
      (by simp [wfLTs, wfLT]; decide)
      (by simp [entriesAtDepth])
  exact h

end VC
